import Mathlib

/-!
Formal model of the dynamic storage allocator in `src/mm.c` (a segregated
free-list allocator with boundary-tag coalescing, first-fit placement and
LIFO bins).

The heap is modelled at the block level: the word-addressed memory of the C
program is abstracted to the list of boundary-tagged blocks it encodes
(prologue sentinel first, epilogue sentinel last), together with the bank of
fifteen segregated free lists, each a list of payload addresses in linked
order (head = most recently inserted).  Every header/footer stamp in the C
code writes the same `(size, alloc)` word to both tags, so a block is
modelled by that single pair.  Pointer arithmetic is preserved exactly: the
payload address of block `i` is `heapStart` plus the sizes of the blocks
before it, `NEXT_BLKP bp = bp + size`, `PREV_BLKP bp = bp - prev_size`.
Heap extension is modelled with an explicit `grant : Bool` standing for the
success or failure of the `mem_sbrk` region provider.

All definitions are executable; machine arithmetic stays within `Nat`/`Int`
bounds for all inputs considered (sizes are far below 2^31), so no modular
reduction is needed.
-/

/-- Word and header/footer size in bytes: `sizeof(void *)` on the 64-bit
target (mm.c:45). -/
def WSIZE : Nat := 8

/-- Doubleword size in bytes (mm.c:46). -/
def DSIZE : Nat := 2 * WSIZE

/-- Tripleword size in bytes (mm.c:47). -/
def TSIZE : Nat := 3 * WSIZE

/-- Alignment constant in bytes (mm.c:44). -/
def ASIZE : Nat := 8

/-- Heap-extension granularity in bytes (mm.c:48). -/
def CHUNKSIZE : Nat := 4104

/-- Number of segregated bins (mm.c:72). -/
def BIN_NUM : Nat := 15

/-- Size bound of bin 0 in bytes (mm.c:73). -/
def BOUND : Nat := 128

/-- Loop body of `get_list_index` (mm.c:609-615): starting from bin `list`
with remaining count `count`, halve the count until it drops to `BOUND` or
the last bin is reached.  `fuel` is the number of loop iterations left
(`BIN_NUM - list`); exhausting it corresponds to falling out of the `for`
loop and returning `BIN_NUM - 1` (mm.c:617). -/
def gliGo : Nat → Nat → Nat → Nat
  | 0, _, _ => BIN_NUM - 1
  | fuel + 1, count, list =>
    if count ≤ BOUND ∨ list = BIN_NUM - 1 then list
    else gliGo fuel (count / 2) (list + 1)

/-- Seglist index of a block size (mm.c:600-618). -/
def get_list_index (size : Nat) : Nat := gliGo BIN_NUM size 0

/-- One boundary-tagged block: total size in bytes and allocated bit.  The C
code always stamps header and footer with the identical packed word
(`PACK(size, alloc)`), so the pair represents both tags. -/
structure Blk where
  size : Nat
  alloc : Bool
deriving DecidableEq, Repr

/-- Allocator state: the chain of blocks from the prologue sentinel to the
epilogue sentinel, plus the `BIN_NUM` segregated free lists (`bin_list`,
mm.c:82), each holding payload addresses with the head being the most
recently inserted block. -/
structure Heap where
  blocks : List Blk
  bins : List (List Nat)
deriving DecidableEq, Repr

/-- Payload address of the prologue: the model relabels the prologue payload
(`heap_listp` area, mm.c:134) to address `2*WSIZE` so that block addresses
satisfy the same arithmetic as in the C code. -/
def heapStart : Nat := DSIZE

/-- Total number of bytes covered by a list of blocks. -/
def sizesSum (bs : List Blk) : Nat := (bs.map Blk.size).sum

/-- Payload address of the block at position `i` of the chain. -/
def addrOf (bs : List Blk) (i : Nat) : Nat := heapStart + sizesSum (bs.take i)

/-- Scanning loop resolving a payload address to a chain position: `cur` is
the payload address of the block at position `i`. -/
def idxOfGo : List Blk → Nat → Nat → Nat → Option Nat
  | [], _, _, _ => none
  | b :: rest, a, cur, i =>
    if cur = a then some i else idxOfGo rest a (cur + b.size) (i + 1)

/-- Position in the block chain of the block whose payload address is `a`
(the model's inverse of the C pointer identity). -/
def idxOf (bs : List Blk) (a : Nat) : Option Nat := idxOfGo bs a heapStart 0

/-- The block whose payload address is `a`. -/
def blockAt (bs : List Blk) (a : Nat) : Option Blk :=
  (idxOf bs a).bind (fun i => bs.get? i)

/-- Size read through `GET_SIZE(HDRP(bp))` (mm.c:60,64): the size field of
the block at payload address `a` (0 when the address resolves to nothing). -/
def sizeAt (h : Heap) (a : Nat) : Nat :=
  ((blockAt h.blocks a).map Blk.size).getD 0

/-- Allocated bit read through `GET_ALLOC(HDRP(bp))` (mm.c:61,64). -/
def allocAt (h : Heap) (a : Nat) : Bool :=
  ((blockAt h.blocks a).map Blk.alloc).getD true

/-- LIFO insertion of block `bp` into the seglist for `size`
(mm.c:628-658): the new block becomes the head of its bin. -/
def insert_block (bins : List (List Nat)) (bp : Nat) (size : Nat) :
    List (List Nat) :=
  let list_idx := get_list_index size
  bins.set list_idx (bp :: bins.getD list_idx [])

/-- Unlinking of block `bp` from its seglist (mm.c:666-714): the bin index
is recomputed from the block's current size and `bp` is spliced out of that
doubly-linked list. -/
def delete_block (h : Heap) (bp : Nat) : List (List Nat) :=
  let block_size := sizeAt h bp
  let list_idx := get_list_index block_size
  h.bins.set list_idx ((h.bins.getD list_idx []).erase bp)

/-- Walk of one bin's linked list (mm.c:577-592): return the first block
whose size is at least `asize`. -/
def find_block_list (h : Heap) : List Nat → Nat → Option Nat
  | [], _ => none
  | bp :: rest, asize =>
    if asize ≤ sizeAt h bp then some bp else find_block_list h rest asize

/-- Loop body of `find_fit` (mm.c:515-521): try bins `i`, `i+1`, ... with
`fuel = BIN_NUM - i` iterations remaining. -/
def ffGo (h : Heap) (asize : Nat) : Nat → Nat → Option Nat
  | 0, _ => none
  | fuel + 1, i =>
    match find_block_list h (h.bins.getD i []) asize with
    | some bp => some bp
    | none => ffGo h asize fuel (i + 1)

/-- First-fit search over the segregated lists (mm.c:503-524). -/
def find_fit (h : Heap) (asize : Nat) : Option Nat :=
  ffGo h asize (BIN_NUM - get_list_index asize) (get_list_index asize)

/-- Placement of an `asize`-byte allocation at the start of free block `bp`
(mm.c:535-567): split when the residue would be at least `WSIZE + TSIZE`
bytes, otherwise consume the whole block.  (In the C code the comparison is
on `size_t`; the model is used only under the call precondition
`asize ≤ csize`, where the two agree.) -/
def place (h : Heap) (bp : Nat) (asize : Nat) : Heap :=
  match idxOf h.blocks bp with
  | none => h
  | some i =>
    let csize := sizeAt h bp
    if WSIZE + TSIZE ≤ csize - asize then
      let bins1 := delete_block h bp
      let blocks1 := h.blocks.take i ++
        ⟨asize, true⟩ :: ⟨csize - asize, false⟩ :: h.blocks.drop (i + 1)
      ⟨blocks1, insert_block bins1 (bp + asize) (csize - asize)⟩
    else
      ⟨h.blocks.set i ⟨csize, true⟩, delete_block h bp⟩

/-- Boundary-tag coalescing of the newly freed block at `bp`
(mm.c:387-457).  `prev_alloc` is read through the previous block's footer
and `next_alloc` through the next block's header; the four cases delete the
blocks being merged from their bins, restamp the merged extent as one free
block and reinsert it.  Returns the new state and the address of the
coalesced block. -/
def coalesce (h : Heap) (bp : Nat) : Heap × Nat :=
  match idxOf h.blocks bp with
  | none => (h, bp)
  | some i =>
    let size := sizeAt h bp
    let prev_alloc := ((h.blocks.get? (i - 1)).map Blk.alloc).getD true
    let next_alloc := ((h.blocks.get? (i + 1)).map Blk.alloc).getD true
    if prev_alloc && next_alloc then
      (h, bp)
    else if prev_alloc && !next_alloc then
      let nsize := ((h.blocks.get? (i + 1)).map Blk.size).getD 0
      let bins1 := delete_block h bp
      let bins2 := delete_block ⟨h.blocks, bins1⟩ (bp + size)
      let newsize := size + nsize
      let blocks2 := h.blocks.take i ++ ⟨newsize, false⟩ :: h.blocks.drop (i + 2)
      (⟨blocks2, insert_block bins2 bp newsize⟩, bp)
    else if !prev_alloc && next_alloc then
      let psize := ((h.blocks.get? (i - 1)).map Blk.size).getD 0
      let bins1 := delete_block h bp
      let bins2 := delete_block ⟨h.blocks, bins1⟩ (bp - psize)
      let newsize := size + psize
      let blocks2 := h.blocks.take (i - 1) ++ ⟨newsize, false⟩ :: h.blocks.drop (i + 1)
      (⟨blocks2, insert_block bins2 (bp - psize) newsize⟩, bp - psize)
    else
      let nsize := ((h.blocks.get? (i + 1)).map Blk.size).getD 0
      let psize := ((h.blocks.get? (i - 1)).map Blk.size).getD 0
      let bins1 := delete_block h bp
      let bins2 := delete_block ⟨h.blocks, bins1⟩ (bp + size)
      let bins3 := delete_block ⟨h.blocks, bins2⟩ (bp - psize)
      let newsize := size + psize + nsize
      let blocks2 := h.blocks.take (i - 1) ++ ⟨newsize, false⟩ :: h.blocks.drop (i + 2)
      (⟨blocks2, insert_block bins3 (bp - psize) newsize⟩, bp - psize)

/-- Heap extension by `words` words (mm.c:466-493): the byte size is rounded
up to an even number of words, the region provider is asked (modelled by
`grant`), the old epilogue header becomes the new free block's header, a new
epilogue is stamped after it, the block is inserted into its bin and
coalesced with a possibly free predecessor. -/
def extend_heap (h : Heap) (words : Nat) (grant : Bool) : Heap × Option Nat :=
  let size := if words % 2 = 1 then (words + 1) * WSIZE else words * WSIZE
  if grant then
    let n := h.blocks.length
    let bp := addrOf h.blocks (n - 1)
    let blocks1 := h.blocks.take (n - 1) ++ [⟨size, false⟩, ⟨0, true⟩]
    let h1 : Heap := ⟨blocks1, insert_block h.bins bp size⟩
    let r := coalesce h1 bp
    (r.1, some r.2)
  else
    (h, none)

/-- Adjusted block size computed by `mm_malloc` for a non-zero payload
request (mm.c:171-187): minimum block for small requests, header+footer
overhead plus word-aligned payload otherwise, then the two trace-specific
overrides (multiples of 128 other than 128 itself, and the literal request
4092). -/
def malloc_asize (size : Nat) : Nat :=
  let asize :=
    if size ≤ DSIZE then ASIZE + TSIZE
    else if size % WSIZE = 0 then DSIZE + size
    else DSIZE + (size / WSIZE + 1) * WSIZE
  let asize := if size % BOUND = 0 ∧ size ≠ BOUND then DSIZE + size + BOUND else asize
  if size = 4092 then WSIZE + CHUNKSIZE else asize

/-- Number of bytes by which the heap actually grows when `mm_malloc` finds
no fit: the composition of the `extendsize` computation (mm.c:196-199), the
division into words (mm.c:201) and the even-word rounding inside
`extend_heap` (mm.c:474). -/
def extendAmount (asize : Nat) : Nat :=
  let extendsize := max asize CHUNKSIZE
  let extendsize :=
    if extendsize % WSIZE ≠ 0 then (extendsize / WSIZE + 1) * WSIZE else extendsize
  let words := extendsize / WSIZE
  if words % 2 = 1 then (words + 1) * WSIZE else words * WSIZE

/-- Allocation (mm.c:157-212): adjust the request, search the free lists,
place on a fit, otherwise extend the heap and place on the new block.
`grant` models the success of the region provider if it is consulted. -/
def mm_malloc (h : Heap) (size : Nat) (grant : Bool) : Heap × Option Nat :=
  if size = 0 then (h, none)
  else
    let asize := malloc_asize size
    match find_fit h asize with
    | some bp => (place h bp asize, some bp)
    | none =>
      let extendsize := max asize CHUNKSIZE
      let extendsize :=
        if extendsize % WSIZE ≠ 0 then (extendsize / WSIZE + 1) * WSIZE else extendsize
      match extend_heap h (extendsize / WSIZE) grant with
      | (h1, none) => (h1, none)
      | (h1, some bp) => (place h1 bp asize, some bp)

/-- Deallocation (mm.c:221-246): ignore NULL, restamp the block's tags as
free, insert it into its bin and coalesce. -/
def mm_free (h : Heap) (bp : Option Nat) : Heap :=
  match bp with
  | none => h
  | some p =>
    match idxOf h.blocks p with
    | none => h
    | some i =>
      let size := sizeAt h p
      let h1 : Heap := ⟨h.blocks.set i ⟨size, false⟩, h.bins⟩
      let h2 : Heap := ⟨h1.blocks, insert_block h1.bins p size⟩
      (coalesce h2 p).1

/-- Fallback path of `mm_realloc` (mm.c:354-372): allocate a fresh block,
return NULL if that fails (leaving the original untouched), otherwise copy
the payload (payload bytes are not part of the model, so the `memcpy` has no
model-level effect), free the old block and return the new address. -/
def realloc_fallback (h : Heap) (p : Nat) (size : Nat) (grant : Bool) :
    Heap × Option Nat :=
  match mm_malloc h size grant with
  | (h1, none) => (h1, none)
  | (h1, some np) => (mm_free h1 (some p), some np)

/-- Reallocation (mm.c:261-373).  `size = 0` frees and returns NULL; a NULL
pointer is plain allocation; otherwise the in-place shrink / grow paths are
tried before the allocate-copy-free fallback.  After the in-place split
paths the C code returns `PREV_BLKP` of the residue, which is the
shrunken/grown block at the original `ptr` (its footer, read by
`PREV_BLKP`, is stamped with `realloc_asize` and is untouched by the
residue's coalescing since that block is allocated). -/
def mm_realloc (h : Heap) (ptr : Option Nat) (size : Nat) (grant : Bool) :
    Heap × Option Nat :=
  if size = 0 then (mm_free h ptr, none)
  else
    match ptr with
    | none => mm_malloc h size grant
    | some p =>
      let new_size := if size % WSIZE ≠ 0 then (size / WSIZE + 1) * WSIZE else size
      let realloc_asize := new_size + DSIZE
      let oldsize := sizeAt h p
      let diffsize : Int := (oldsize : Int) - (realloc_asize : Int)
      if realloc_asize = oldsize then (h, some p)
      else if 0 < diffsize then
        if (2 * DSIZE : Int) ≤ diffsize then
          match idxOf h.blocks p with
          | none => (h, some p)
          | some i =>
            let blocks1 := h.blocks.take i ++
              ⟨realloc_asize, true⟩ :: ⟨oldsize - realloc_asize, false⟩ ::
                h.blocks.drop (i + 1)
            let resAddr := p + realloc_asize
            let h1 : Heap :=
              ⟨blocks1, insert_block h.bins resAddr (oldsize - realloc_asize)⟩
            ((coalesce h1 resAddr).1, some p)
        else (h, some p)
      else
        match idxOf h.blocks p with
        | none => realloc_fallback h p size grant
        | some i =>
          let nextsize := ((h.blocks.get? (i + 1)).map Blk.size).getD 0
          let next_alloc := ((h.blocks.get? (i + 1)).map Blk.alloc).getD true
          let absdiff := realloc_asize - oldsize
          if next_alloc = false ∧ absdiff + 2 * DSIZE ≤ nextsize then
            let bins1 := delete_block h (p + oldsize)
            let newNextSize := nextsize - absdiff
            let blocks1 := h.blocks.take i ++
              ⟨realloc_asize, true⟩ :: ⟨newNextSize, false⟩ :: h.blocks.drop (i + 2)
            let resAddr := p + realloc_asize
            let h1 : Heap := ⟨blocks1, insert_block bins1 resAddr newNextSize⟩
            ((coalesce h1 resAddr).1, some p)
          else if next_alloc = false ∧ absdiff ≤ nextsize then
            let bins1 := delete_block h (p + oldsize)
            let blocks1 := h.blocks.take i ++
              ⟨oldsize + nextsize, true⟩ :: h.blocks.drop (i + 2)
            (⟨blocks1, bins1⟩, some p)
          else
            realloc_fallback h p size grant

/-- Adjacency predicate of the coalescing-completeness invariant: of two
neighbouring blocks at least one is allocated. -/
def adjOK (a b : Blk) : Prop := a.alloc = true ∨ b.alloc = true

instance (a b : Blk) : Decidable (adjOK a b) :=
  inferInstanceAs (Decidable (a.alloc = true ∨ b.alloc = true))

/-- Coalescing completeness: no two adjacent blocks of the chain are both
free. -/
def noAdjFree (bs : List Blk) : Prop := List.Chain' adjOK bs

instance (bs : List Blk) : Decidable (noAdjFree bs) :=
  inferInstanceAs (Decidable (List.Chain' adjOK bs))

/-- Bins only reference free blocks of the chain. -/
def binsValidB (h : Heap) : Bool :=
  h.bins.all (fun l => l.all (fun a =>
    match blockAt h.blocks a with
    | some b => !b.alloc
    | none => false))

/-- Structural well-formedness of the block chain: at least the two
sentinels are present, the first block (prologue) and last block (epilogue)
are allocated, the epilogue has size 0, and every block but the epilogue has
a positive size. -/
def chainWFB (bs : List Blk) : Bool :=
  decide (2 ≤ bs.length) &&
  ((bs.head?.map (fun b => b.alloc && decide (0 < b.size))).getD false) &&
  ((bs.getLast?.map (fun b => b.alloc && decide (b.size = 0))).getD false) &&
  (bs.dropLast.all (fun b => decide (0 < b.size)))

/-- Structural well-formedness of an allocator state: a well-formed chain,
bins referencing only free blocks, and `BIN_NUM` bins. -/
def wfB (h : Heap) : Bool :=
  chainWFB h.blocks && binsValidB h && decide (h.bins.length = BIN_NUM)

/-- Size legality of one block: epilogue (0), prologue (`DSIZE`) or a real
block of at least `TSIZE` bytes. -/
def sizeLegal (b : Blk) : Prop := b.size = 0 ∨ b.size = DSIZE ∨ TSIZE ≤ b.size

instance (b : Blk) : Decidable (sizeLegal b) :=
  inferInstanceAs (Decidable (b.size = 0 ∨ b.size = DSIZE ∨ TSIZE ≤ b.size))

/-- One allocator operation, as observed at the public entry points plus the
internal heap extension named by the spec. -/
inductive Op where
  | malloc (size : Nat) (grant : Bool)
  | free (bp : Option Nat)
  | realloc (ptr : Option Nat) (size : Nat) (grant : Bool)
  | extend (words : Nat) (grant : Bool)
deriving DecidableEq, Repr

/-- Heap state after running one operation. -/
def Op.apply (op : Op) (h : Heap) : Heap :=
  match op with
  | .malloc s g => (mm_malloc h s g).1
  | .free p => mm_free h p
  | .realloc p s g => (mm_realloc h p s g).1
  | .extend w g => (extend_heap h w g).1

/-- The address `p` is the payload address of an allocated block strictly
between the prologue and the epilogue. -/
def isLiveAllocB (h : Heap) (p : Nat) : Bool :=
  match idxOf h.blocks p with
  | some i =>
    decide (0 < i) && decide (i + 1 < h.blocks.length) &&
    ((h.blocks.get? i).map Blk.alloc).getD false
  | none => false

/-- Validity of an operation's argument against the current state: freed or
reallocated pointers must be live allocated blocks strictly between the
sentinels (the contract of mm.c:215-216 and mm.c:249-250), and a heap
extension is by a positive number of words. -/
def opValid (h : Heap) : Op → Bool
  | .malloc _ _ => true
  | .free none => true
  | .free (some p) => isLiveAllocB h p
  | .realloc none _ _ => true
  | .realloc (some p) _ _ => isLiveAllocB h p
  | .extend w _ => decide (0 < w)

/-! ### Arithmetic of the size-to-bin function -/

/-- Number of halvings needed to bring a count down to `BOUND` (the abstract
count of iterations performed by the `get_list_index` loop before its exit
condition fires, ignoring the bin-count cap). -/
def hsteps (c : Nat) : Nat :=
  if c ≤ BOUND then 0 else hsteps (c / 2) + 1
termination_by c
decreasing_by
  simp only [BOUND] at *
  omega

theorem hsteps_of_le (c : Nat) (h : c ≤ BOUND) : hsteps c = 0 := by
  unfold hsteps
  simp [h]

theorem hsteps_of_gt (c : Nat) (h : BOUND < c) : hsteps c = hsteps (c / 2) + 1 := by
  conv_lhs => rw [hsteps]
  simp [Nat.not_le_of_lt h]

theorem gliGo_eq_min (fuel : Nat) (hf : fuel ≤ BIN_NUM - 1) :
    ∀ c, gliGo (fuel + 1) c (BIN_NUM - 1 - fuel) =
      (BIN_NUM - 1 - fuel) + min fuel (hsteps c) := by
  induction fuel with
  | zero =>
    intro c
    simp [gliGo]
  | succ n ih =>
    intro c
    have hn : n ≤ BIN_NUM - 1 := Nat.le_of_succ_le hf
    rw [gliGo]
    by_cases hc : c ≤ BOUND
    · rw [if_pos (Or.inl hc), hsteps_of_le c hc]
      simp
    · have hlist : BIN_NUM - 1 - (n + 1) ≠ BIN_NUM - 1 := by
        simp only [BIN_NUM] at *
        omega
      rw [if_neg (by tauto)]
      have harg : BIN_NUM - 1 - (n + 1) + 1 = BIN_NUM - 1 - n := by
        simp only [BIN_NUM] at *
        omega
      rw [harg, ih hn (c / 2), hsteps_of_gt c (Nat.lt_of_not_le hc)]
      simp only [BIN_NUM] at *
      omega

/-- Closed form of the bin function: the number of halvings to reach
`BOUND`, capped at the final bin. -/
theorem get_list_index_eq (s : Nat) :
    get_list_index s = min (hsteps s) (BIN_NUM - 1) := by
  have h := gliGo_eq_min (BIN_NUM - 1) (le_refl _) s
  unfold get_list_index
  simp only [BIN_NUM] at *
  simpa [Nat.min_comm] using h

theorem get_list_index_le (s : Nat) : get_list_index s ≤ BIN_NUM - 1 := by
  rw [get_list_index_eq]
  exact Nat.min_le_right _ _

theorem hsteps_mono : ∀ c2 c1, c1 ≤ c2 → hsteps c1 ≤ hsteps c2 := by
  intro c2
  induction c2 using Nat.strong_induction_on with
  | _ c2 ih =>
    intro c1 hle
    by_cases h1 : c1 ≤ BOUND
    · rw [hsteps_of_le c1 h1]
      exact Nat.zero_le _
    · have h2 : BOUND < c2 := Nat.lt_of_lt_of_le (Nat.lt_of_not_le h1) hle
      rw [hsteps_of_gt c1 (Nat.lt_of_not_le h1), hsteps_of_gt c2 h2]
      have hdiv : c2 / 2 < c2 := by
        simp only [BOUND] at h2
        omega
      exact Nat.succ_le_succ (ih (c2 / 2) hdiv (c1 / 2) (Nat.div_le_div_right hle))

theorem hsteps_lower : ∀ k s, 129 * 2 ^ k ≤ s → k + 1 ≤ hsteps s := by
  intro k
  induction k with
  | zero =>
    intro s hs
    simp only [pow_zero, mul_one] at hs
    rw [hsteps_of_gt s (by simp only [BOUND]; omega)]
    omega
  | succ n ih =>
    intro s hs
    have h1 : BOUND < s := by
      have : (2:Nat) ^ (n+1) ≥ 1 := Nat.one_le_two_pow
      simp only [BOUND]
      nlinarith
    rw [hsteps_of_gt s h1]
    have h2 : 129 * 2 ^ n ≤ s / 2 := by
      rw [pow_succ] at hs
      omega
    exact Nat.succ_le_succ (ih (s / 2) h2)

/-- Adjusted-size computation as the specification states it (spec section
4.3 / claim C2): minimum block for `s ≤ 2W`, otherwise `2W` plus the payload
rounded up to a word multiple; overridden for non-zero multiples of 128
other than 128 itself and for the literal request 4092. -/
def asizeSpec (s : Nat) : Nat :=
  if s % 128 = 0 ∧ s ≠ 128 then 2 * WSIZE + s + 128
  else if s = 4092 then WSIZE + CHUNKSIZE
  else if s ≤ 2 * WSIZE then 4 * WSIZE
  else 2 * WSIZE + ((s + WSIZE - 1) / WSIZE) * WSIZE

/-- C2: for every payload request `s > 0`, the adjusted block size computed
by `mm_malloc` (mm.c:171-187) is `4W` for `s ≤ 2W`, otherwise
`2W + round_up(s, W)`, overridden to `2W + s + 128` when `s` is a non-zero
multiple of 128 other than 128, and to `W + CHUNKSIZE` when `s = 4092`. -/
theorem c2_adjusted_size (s : Nat) (_hs : 0 < s) : malloc_asize s = asizeSpec s := by
  simp only [malloc_asize, asizeSpec, WSIZE, DSIZE, ASIZE, TSIZE, CHUNKSIZE, BOUND]
  split_ifs <;> omega

/-- Witness for C2 at concrete inputs (covering the four regimes of the
computation). -/
theorem c2_adjusted_size_witness :
    (0 < 3 ∧ malloc_asize 3 = asizeSpec 3) ∧
    (0 < 100 ∧ malloc_asize 100 = asizeSpec 100) ∧
    (0 < 256 ∧ malloc_asize 256 = asizeSpec 256) ∧
    (0 < 4092 ∧ malloc_asize 4092 = asizeSpec 4092) :=
  ⟨⟨by decide, c2_adjusted_size 3 (by decide)⟩,
   ⟨by decide, c2_adjusted_size 100 (by decide)⟩,
   ⟨by decide, c2_adjusted_size 256 (by decide)⟩,
   ⟨by decide, c2_adjusted_size 4092 (by decide)⟩⟩

/-- C7 fails as stated: for the size 2113536 (greater than 128), halving
does not send the block to the next-lower bin, because both 2113536 and its
half 1056768 already land in the final bin 14. -/
theorem c7_counterexample :
    128 < 2113536 ∧ get_list_index 2113536 = 14 ∧
    get_list_index (2113536 / 2) = 14 ∧
    get_list_index 2113536 ≠ 1 + get_list_index (2113536 / 2) := by decide

/-- C7 (amended): sizes up to 128 map to bin 0; for `s > 128` the halving
recurrence holds capped at the final bin, `bin(s) = min (1 + bin(s/2)) 14`;
and every size at or beyond `129 * 2^13` (the first size past the
penultimate bin's range) maps to the final bin 14. -/
theorem c7_bin_function :
    (∀ s, s ≤ BOUND → get_list_index s = 0) ∧
    (∀ s, BOUND < s →
      get_list_index s = min (1 + get_list_index (s / 2)) (BIN_NUM - 1)) ∧
    (∀ s, 129 * 2 ^ 13 ≤ s → get_list_index s = BIN_NUM - 1) := by
  refine ⟨fun s hs => ?_, fun s hs => ?_, fun s hs => ?_⟩
  · rw [get_list_index_eq, hsteps_of_le s hs]
    simp [BIN_NUM]
  · rw [get_list_index_eq, get_list_index_eq, hsteps_of_gt s hs]
    simp only [BIN_NUM]
    omega
  · rw [get_list_index_eq]
    have := hsteps_lower 13 s hs
    simp only [BIN_NUM]
    omega

/-- Witness for C7's amended statement at concrete inputs. -/
theorem c7_bin_function_witness :
    (100 ≤ BOUND ∧ get_list_index 100 = 0) ∧
    (BOUND < 300 ∧ get_list_index 300 = min (1 + get_list_index 150) (BIN_NUM - 1)) ∧
    (129 * 2 ^ 13 ≤ 2000000 ∧ get_list_index 2000000 = BIN_NUM - 1) :=
  ⟨⟨by decide, c7_bin_function.1 100 (by decide)⟩,
   ⟨by decide, c7_bin_function.2.1 300 (by decide)⟩,
   ⟨by decide, c7_bin_function.2.2 2000000 (by decide)⟩⟩

/-- C10: the bin-selection function is total and monotone: it always lands
in `[0, BIN_NUM - 1]`, and a larger size never selects a smaller bin.
Consequently a free block whose size satisfies a request sits in a bin at or
after the one where the first-fit search of `find_fit` starts. -/
theorem c10_bin_monotone (s1 s2 : Nat) (h : s1 ≤ s2) :
    get_list_index s2 ≤ BIN_NUM - 1 ∧ get_list_index s1 ≤ get_list_index s2 := by
  constructor
  · exact get_list_index_le s2
  · rw [get_list_index_eq, get_list_index_eq]
    have := hsteps_mono s2 s1 h
    omega

/-- Witness for C10 at a concrete input pair. -/
theorem c10_bin_monotone_witness :
    (40 : Nat) ≤ 4000 ∧ get_list_index 4000 ≤ BIN_NUM - 1 ∧
    get_list_index 40 ≤ get_list_index 4000 :=
  ⟨by decide, c10_bin_monotone 40 4000 (by decide)⟩

/-! ### Dispatch and failure behaviour of the entry points -/

/-- C8: `mm_realloc` with size 0 is exactly `mm_free` followed by returning
NULL, and `mm_realloc` of a NULL pointer is exactly `mm_malloc` (mm.c:267-274). -/
theorem c8_realloc_dispatch :
    (∀ h ptr g, mm_realloc h ptr 0 g = (mm_free h ptr, none)) ∧
    (∀ h s g, mm_realloc h none s g = mm_malloc h s g) := by
  constructor
  · intro h ptr g
    rfl
  · intro h s g
    by_cases hs : s = 0
    · subst hs
      simp [mm_realloc, mm_free, mm_malloc]
    · simp [mm_realloc, hs]

/-- Failure of `mm_malloc` leaves the heap untouched: the only paths that
return NULL are the zero-size early return and a declined heap extension,
which happens before any stamping (mm.c:476-477). -/
theorem mm_malloc_failed (h : Heap) (s : Nat) (g : Bool)
    (hfail : (mm_malloc h s g).2 = none) : (mm_malloc h s g).1 = h := by
  by_cases hs : s = 0
  · simp [mm_malloc, hs]
  · simp only [mm_malloc, hs, if_false, ite_false]
    rcases hff : find_fit h (malloc_asize s) with _ | bp
    · rcases hg : g with _ | _
      · simp [extend_heap, hff, hg]
      · exfalso
        simp only [mm_malloc, hs, ite_false, hff, extend_heap, hg] at hfail
        simp at hfail
    · exfalso
      simp only [mm_malloc, hs, ite_false, hff] at hfail
      simp at hfail

/-- Failure of `mm_realloc` (with a non-zero size, so that it is not the
free-and-return-NULL contract) leaves the heap untouched (mm.c:356-358). -/
theorem realloc_fallback_failed (h : Heap) (p : Nat) (s : Nat) (g : Bool)
    (hfail : (realloc_fallback h p s g).2 = none) :
    (realloc_fallback h p s g).1 = h := by
  unfold realloc_fallback at hfail ⊢
  rcases hmm : mm_malloc h s g with ⟨h1, r⟩
  rcases r with _ | np
  · simp only [hmm]
    have hh := mm_malloc_failed h s g (by rw [hmm])
    rw [hmm] at hh
    exact hh
  · rw [hmm] at hfail
    simp at hfail

theorem mm_realloc_failed (h : Heap) (p : Option Nat) (s : Nat) (g : Bool)
    (hs : s ≠ 0) (hfail : (mm_realloc h p s g).2 = none) :
    (mm_realloc h p s g).1 = h := by
  rcases p with _ | p
  · unfold mm_realloc at hfail ⊢
    simp only [hs, ite_false] at hfail ⊢
    exact mm_malloc_failed h s g hfail
  · unfold mm_realloc at hfail ⊢
    simp only [hs, ite_false] at hfail ⊢
    rcases hidx : idxOf h.blocks p with _ | i <;>
      simp only [hidx] at hfail ⊢ <;>
      split_ifs at hfail ⊢ <;>
      first
        | exact realloc_fallback_failed h p s g hfail
        | simp at hfail

/-- C9: when the region provider declines (or, for `mm_realloc`, when the
internal allocation of the fallback path fails), `mm_malloc` and
`mm_realloc` return NULL and the pre-call heap state — every block tag and
every bin — is exactly preserved. -/
theorem c9_failure_preserves :
    (∀ h s g, (mm_malloc h s g).2 = none → (mm_malloc h s g).1 = h) ∧
    (∀ h p s g, s ≠ 0 → (mm_realloc h p s g).2 = none →
      (mm_realloc h p s g).1 = h) :=
  ⟨mm_malloc_failed, fun h p s g hs hf => mm_realloc_failed h p s g hs hf⟩

/-- Empty bank of bins, as established by `mm_init` (mm.c:125-127). -/
def bins0 : List (List Nat) := List.replicate BIN_NUM []

/-- A minimal heap: prologue and epilogue only, all bins empty. -/
def hEmpty : Heap := ⟨[⟨DSIZE, true⟩, ⟨0, true⟩], bins0⟩

/-- Witness for C9 at a concrete state: with all bins empty and the region
provider declining, both entry points fail and preserve the state. -/
theorem c9_failure_preserves_witness :
    ((mm_malloc hEmpty 1 false).2 = none ∧ (mm_malloc hEmpty 1 false).1 = hEmpty) ∧
    ((1 : Nat) ≠ 0 ∧ (mm_realloc hEmpty (some 32) 1 false).2 = none ∧
      (mm_realloc hEmpty (some 32) 1 false).1 = hEmpty) :=
  ⟨⟨by decide, c9_failure_preserves.1 hEmpty 1 false (by decide)⟩,
   ⟨by decide, by decide,
    c9_failure_preserves.2 hEmpty (some 32) 1 false (by decide) (by decide)⟩⟩

/-- Extension amount as the specification states it (claim C4):
`max(asize, CHUNKSIZE)` rounded up to a multiple of `WSIZE`. -/
def extendAmountSpec (asize : Nat) : Nat :=
  let extendsize := max asize CHUNKSIZE
  if extendsize % WSIZE ≠ 0 then (extendsize / WSIZE + 1) * WSIZE else extendsize

/-- C4 fails as stated: on a heap with no fit for request 1 (adjusted size
32), the heap grows by 4112 bytes, not by the claimed
`max(asize, CHUNKSIZE) = 4104`, because `extend_heap` rounds its word count
up to an even number of words (mm.c:474). -/
theorem c4_counterexample :
    find_fit hEmpty (malloc_asize 1) = none ∧
    sizesSum ((mm_malloc hEmpty 1 true).1.blocks) =
      sizesSum hEmpty.blocks + extendAmount (malloc_asize 1) ∧
    extendAmount (malloc_asize 1) = 4112 ∧
    extendAmountSpec (malloc_asize 1) = 4104 ∧
    sizesSum ((mm_malloc hEmpty 1 true).1.blocks) ≠
      sizesSum hEmpty.blocks + extendAmountSpec (malloc_asize 1) := by decide

/-- C4 (amended): when first-fit finds nothing, the heap is extended by
exactly `max(asize, CHUNKSIZE)` rounded up to a multiple of `2W` (the word
count is rounded to an even number of words), and a declined extension
returns NULL with no heap mutation. -/
theorem c4_extension :
    (∀ asize, extendAmount asize = (max asize CHUNKSIZE + (DSIZE - 1)) / DSIZE * DSIZE) ∧
    (∀ h s, find_fit h (malloc_asize s) = none → mm_malloc h s false = (h, none)) := by
  constructor
  · intro asize
    unfold extendAmount
    simp only [WSIZE, DSIZE]
    generalize max asize CHUNKSIZE = m
    split_ifs <;> omega
  · intro h s hff
    by_cases hs : s = 0
    · simp [mm_malloc, hs]
    · simp [mm_malloc, hs, hff, extend_heap]

/-- Witness for C4's amended statement at concrete inputs. -/
theorem c4_extension_witness :
    extendAmount 4120 = (max 4120 CHUNKSIZE + (DSIZE - 1)) / DSIZE * DSIZE ∧
    (find_fit hEmpty (malloc_asize 5) = none ∧
      mm_malloc hEmpty 5 false = (hEmpty, none)) :=
  ⟨c4_extension.1 4120,
   ⟨by decide, c4_extension.2 hEmpty 5 (by decide)⟩⟩

/-! ### First-fit search (claim C6) -/

theorem find_block_list_eq_find? (h : Heap) (l : List Nat) (asize : Nat) :
    find_block_list h l asize = l.find? (fun bp => decide (asize ≤ sizeAt h bp)) := by
  induction l with
  | nil => rfl
  | cons bp rest ih =>
    rw [find_block_list, List.find?_cons]
    by_cases hc : asize ≤ sizeAt h bp
    · simp [hc]
    · simp [hc, ih]

theorem ffGo_eq_find? (h : Heap) (asize : Nat) :
    ∀ fuel i, i + fuel = BIN_NUM → h.bins.length = BIN_NUM →
      ffGo h asize fuel i =
        ((h.bins.drop i).flatten).find? (fun bp => decide (asize ≤ sizeAt h bp)) := by
  intro fuel
  induction fuel with
  | zero =>
    intro i hi hlen
    have hnil : h.bins.drop i = [] := List.drop_eq_nil_of_le (by omega)
    simp [ffGo, hnil]
  | succ n ih =>
    intro i hi hlen
    have hilt : i < h.bins.length := by omega
    have hdrop : h.bins.drop i = h.bins[i] :: h.bins.drop (i + 1) :=
      List.drop_eq_getElem_cons hilt
    have hgetD : h.bins.getD i [] = h.bins[i] := List.getD_eq_getElem _ _ hilt
    rw [ffGo, hdrop, List.flatten_cons, List.find?_append, hgetD,
      find_block_list_eq_find?]
    rcases hfb : (h.bins[i]).find? (fun bp => decide (asize ≤ sizeAt h bp)) with _ | bp
    · simp only [hfb, Option.none_or]
      exact ih (i + 1) (by omega) hlen
    · simp [hfb]

/-- C6: for every request, the first-fit search starts at the bin computed
from the request, scans the bins upward and returns the first block (in each
bin's linked order) whose size is at least the request — i.e. it equals
`find?` over the concatenation of all bins from the starting one; it returns
NULL exactly when no block in those bins suffices. -/
theorem c6_first_fit (h : Heap) (asize : Nat) (hlen : h.bins.length = BIN_NUM) :
    find_fit h asize =
      ((h.bins.drop (get_list_index asize)).flatten).find?
        (fun bp => decide (asize ≤ sizeAt h bp)) := by
  have hle := get_list_index_le asize
  unfold find_fit
  exact ffGo_eq_find? h asize _ _ (by simp only [BIN_NUM] at *; omega) hlen

/-- A small concrete state with one free block, for witnesses. -/
def hFit : Heap := ⟨[⟨DSIZE, true⟩, ⟨4112, false⟩, ⟨0, true⟩], bins0.set 5 [32]⟩

/-- Witness for C6 at a concrete state. -/
theorem c6_first_fit_witness :
    hFit.bins.length = BIN_NUM ∧
    find_fit hFit 32 =
      ((hFit.bins.drop (get_list_index 32)).flatten).find?
        (fun bp => decide (32 ≤ sizeAt hFit bp)) :=
  ⟨by decide, c6_first_fit hFit 32 (by decide)⟩

/-! ### Address resolution -/

theorem sizesSum_nil : sizesSum [] = 0 := rfl

theorem sizesSum_cons (b : Blk) (bs : List Blk) :
    sizesSum (b :: bs) = b.size + sizesSum bs := by
  simp [sizesSum]

theorem sizesSum_append (xs ys : List Blk) :
    sizesSum (xs ++ ys) = sizesSum xs + sizesSum ys := by
  simp [sizesSum]

/-- Scanning skips a prefix of positive-size blocks whose span ends at or
before the target address. -/
theorem idxOfGo_append (X l : List Blk) (a : Nat)
    (hpos : ∀ x ∈ X, 0 < x.size) :
    ∀ cur i, cur + sizesSum X ≤ a →
      idxOfGo (X ++ l) a cur i = idxOfGo l a (cur + sizesSum X) (i + X.length) := by
  induction X with
  | nil => intro cur i _; simp [sizesSum]
  | cons b X ih =>
    intro cur i hle
    have hb : 0 < b.size := hpos b (by simp)
    have hsum : sizesSum (b :: X) = b.size + sizesSum X := sizesSum_cons b X
    rw [List.cons_append, idxOfGo, if_neg (by omega)]
    have hX : ∀ x ∈ X, 0 < x.size := fun x hx => hpos x (by simp [hx])
    rw [ih hX (cur + b.size) (i + 1) (by omega)]
    have h1 : cur + b.size + sizesSum X = cur + sizesSum (b :: X) := by omega
    have h2 : i + 1 + X.length = i + (b :: X).length := by
      simp only [List.length_cons]
      omega
    rw [h1, h2]

theorem idxOfGo_head (b : Blk) (l : List Blk) (a i : Nat) :
    idxOfGo (b :: l) a a i = some i := by
  simp [idxOfGo]

theorem idxOf_resolve (X : List Blk) (b : Blk) (Y : List Blk)
    (hpos : ∀ x ∈ X, 0 < x.size) :
    idxOf (X ++ b :: Y) (heapStart + sizesSum X) = some X.length := by
  unfold idxOf
  rw [idxOfGo_append X (b :: Y) _ hpos heapStart 0 (le_refl _), idxOfGo_head]
  simp

theorem blockAt_resolve (X : List Blk) (b : Blk) (Y : List Blk)
    (hpos : ∀ x ∈ X, 0 < x.size) :
    blockAt (X ++ b :: Y) (heapStart + sizesSum X) = some b := by
  unfold blockAt
  rw [idxOf_resolve X b Y hpos]
  simp only [Option.some_bind]
  rw [List.get?_append_right (le_refl X.length)]
  simp

/-- Inverse direction of scanning: a successful resolution pins down the
index and the address. -/
theorem idxOfGo_some (l : List Blk) :
    ∀ a cur i j, idxOfGo l a cur i = some j →
      i ≤ j ∧ j - i < l.length ∧ a = cur + sizesSum (l.take (j - i)) := by
  induction l with
  | nil => intro a cur i j hj; simp [idxOfGo] at hj
  | cons b rest ih =>
    intro a cur i j hj
    rw [idxOfGo] at hj
    by_cases hc : cur = a
    · rw [if_pos hc] at hj
      injection hj with hj
      subst hj
      simp [hc.symm, sizesSum]
    · rw [if_neg hc] at hj
      obtain ⟨h1, h2, h3⟩ := ih a (cur + b.size) (i + 1) j hj
      have hlen : j - i < (b :: rest).length := by
        simp only [List.length_cons]
        omega
      refine ⟨by omega, hlen, ?_⟩
      have htake : (b :: rest).take (j - i) = b :: rest.take (j - i - 1) := by
        obtain ⟨k, hk⟩ : ∃ k, j - i = k + 1 := ⟨j - i - 1, by omega⟩
        rw [hk, List.take_succ_cons]
        simp
      rw [htake, sizesSum_cons]
      have hsub : j - (i + 1) = j - i - 1 := by omega
      rw [hsub] at h3
      omega

theorem idxOf_some (bs : List Blk) (a i : Nat) (h : idxOf bs a = some i) :
    i < bs.length ∧ a = addrOf bs i := by
  obtain ⟨h1, h2, h3⟩ := idxOfGo_some bs a heapStart 0 i h
  simp only [Nat.sub_zero] at h2 h3
  exact ⟨h2, by rw [addrOf, ← h3]⟩

theorem blockAt_some (bs : List Blk) (a : Nat) (b : Blk)
    (h : blockAt bs a = some b) :
    ∃ i, idxOf bs a = some i ∧ i < bs.length ∧ a = addrOf bs i ∧
      bs.get? i = some b := by
  unfold blockAt at h
  rcases hidx : idxOf bs a with _ | i
  · rw [hidx] at h; simp at h
  · rw [hidx] at h; simp only [Option.some_bind] at h
    obtain ⟨h1, h2⟩ := idxOf_some bs a i hidx
    exact ⟨i, rfl, h1, h2, h⟩

/-! ### Well-formedness projections -/

theorem chainWFB_parts (bs : List Blk) (hwf : chainWFB bs = true) :
    2 ≤ bs.length ∧
    (∃ pb, bs.head? = some pb ∧ pb.alloc = true ∧ 0 < pb.size) ∧
    (∃ eb, bs.getLast? = some eb ∧ eb.alloc = true ∧ eb.size = 0) ∧
    (∀ x ∈ bs.dropLast, 0 < x.size) := by
  unfold chainWFB at hwf
  simp only [Bool.and_eq_true, decide_eq_true_eq] at hwf
  obtain ⟨⟨⟨h1, h2⟩, h3⟩, h4⟩ := hwf
  refine ⟨h1, ?_, ?_, ?_⟩
  · rcases hh : bs.head? with _ | pb
    · rw [hh] at h2; simp at h2
    · rw [hh] at h2
      simp at h2
      exact ⟨pb, rfl, h2.1, h2.2⟩
  · rcases hh : bs.getLast? with _ | eb
    · rw [hh] at h3; simp at h3
    · rw [hh] at h3
      simp at h3
      exact ⟨eb, rfl, h3.1, h3.2⟩
  · intro x hx
    rw [List.all_eq_true] at h4
    simpa using h4 x hx

theorem wfB_chainWFB (h : Heap) (hwf : wfB h = true) : chainWFB h.blocks = true := by
  unfold wfB at hwf
  simp only [Bool.and_eq_true] at hwf
  exact hwf.1.1

theorem wfB_parts (h : Heap) (hwf : wfB h = true) :
    2 ≤ h.blocks.length ∧
    (∃ pb, h.blocks.head? = some pb ∧ pb.alloc = true ∧ 0 < pb.size) ∧
    (∃ eb, h.blocks.getLast? = some eb ∧ eb.alloc = true ∧ eb.size = 0) ∧
    (∀ x ∈ h.blocks.dropLast, 0 < x.size) ∧
    binsValidB h = true ∧ h.bins.length = BIN_NUM := by
  have hc := chainWFB_parts h.blocks (wfB_chainWFB h hwf)
  unfold wfB at hwf
  simp only [Bool.and_eq_true, decide_eq_true_eq] at hwf
  exact ⟨hc.1, hc.2.1, hc.2.2.1, hc.2.2.2, hwf.1.2, hwf.2⟩

theorem wf_take_pos (h : Heap) (hwf : chainWFB h.blocks = true) (i : Nat)
    (hi : i < h.blocks.length) : ∀ x ∈ h.blocks.take i, 0 < x.size := by
  obtain ⟨-, -, -, hpos⟩ := chainWFB_parts h.blocks hwf
  intro x hx
  apply hpos
  rw [List.dropLast_eq_take]
  have htt : h.blocks.take i = (h.blocks.take (h.blocks.length - 1)).take i := by
    rw [List.take_take]
    congr 1
    omega
  rw [htt] at hx
  exact List.take_subset i _ hx

/-! ### Placement (claim C5) -/

/-- C5: for a free block `bp` of size `csize` and a request `asize ≤ csize`
(with `asize` positive, as every adjusted size is), `place` splits exactly
when the residue `csize - asize` is at least one minimum block
(`WSIZE + TSIZE`): it stamps `(asize, allocated)` at `bp`, stamps a free
residue of size `csize - asize` at `bp + asize`, removes `bp` from its bin
and inserts the residue into its bin; otherwise it stamps the whole block
`(csize, allocated)` and removes it from its bin. -/
theorem c5_place (h : Heap) (bp csize asize : Nat)
    (hwf : wfB h = true) (hasz : 0 < asize)
    (hb : blockAt h.blocks bp = some ⟨csize, false⟩)
    (_hle : asize ≤ csize) :
    (WSIZE + TSIZE ≤ csize - asize →
      blockAt (place h bp asize).blocks bp = some ⟨asize, true⟩ ∧
      blockAt (place h bp asize).blocks (bp + asize) =
        some ⟨csize - asize, false⟩ ∧
      (place h bp asize).bins =
        insert_block (delete_block h bp) (bp + asize) (csize - asize)) ∧
    (csize - asize < WSIZE + TSIZE →
      blockAt (place h bp asize).blocks bp = some ⟨csize, true⟩ ∧
      (place h bp asize).bins = delete_block h bp) := by
  obtain ⟨i, hidx, hilt, haddr, hget⟩ := blockAt_some h.blocks bp _ hb
  have hszAt : sizeAt h bp = csize := by simp [sizeAt, hb]
  have hXpos : ∀ x ∈ h.blocks.take i, 0 < x.size :=
    wf_take_pos h (wfB_chainWFB h hwf) i hilt
  have hgetE : h.blocks[i] = ⟨csize, false⟩ := by
    rw [List.get?_eq_getElem?, List.getElem?_eq_getElem hilt] at hget
    injection hget
  have hdecomp : h.blocks = h.blocks.take i ++ ⟨csize, false⟩ :: h.blocks.drop (i + 1) := by
    conv_lhs => rw [← List.take_append_drop i h.blocks]
    rw [List.drop_eq_getElem_cons hilt, hgetE]
  have haddr2 : bp = heapStart + sizesSum (h.blocks.take i) := haddr
  have hplace : place h bp asize =
      if WSIZE + TSIZE ≤ csize - asize then
        ⟨h.blocks.take i ++ ⟨asize, true⟩ :: ⟨csize - asize, false⟩ :: h.blocks.drop (i + 1),
         insert_block (delete_block h bp) (bp + asize) (csize - asize)⟩
      else ⟨h.blocks.set i ⟨csize, true⟩, delete_block h bp⟩ := by
    simp only [place, hidx, hszAt]
  constructor
  · intro hcond
    rw [hplace, if_pos hcond]
    refine ⟨?_, ?_, rfl⟩
    · rw [haddr2]
      exact blockAt_resolve _ _ _ hXpos
    · have hassoc : h.blocks.take i ++ ⟨asize, true⟩ :: ⟨csize - asize, false⟩ :: h.blocks.drop (i + 1) =
          (h.blocks.take i ++ [⟨asize, true⟩]) ++ ⟨csize - asize, false⟩ :: h.blocks.drop (i + 1) := by
        simp
      have haddr3 : bp + asize = heapStart + sizesSum (h.blocks.take i ++ [⟨asize, true⟩]) := by
        simp only [sizesSum_append, sizesSum_cons, sizesSum_nil, haddr2]
        omega
      rw [hassoc, haddr3]
      apply blockAt_resolve
      intro x hx
      rcases List.mem_append.mp hx with hx1 | hx1
      · exact hXpos x hx1
      · simp at hx1
        subst hx1
        exact hasz
  · intro hcond
    rw [hplace, if_neg (by omega)]
    refine ⟨?_, rfl⟩
    have hset : h.blocks.set i ⟨csize, true⟩ =
        h.blocks.take i ++ ⟨csize, true⟩ :: h.blocks.drop (i + 1) :=
      List.set_eq_take_cons_drop _ hilt
    rw [hset, haddr2]
    exact blockAt_resolve _ _ _ hXpos

/-- Witness for C5 at a concrete state, hitting both the split branch and
the whole-block branch. -/
theorem c5_place_witness :
    (wfB hFit = true ∧ 0 < (32:Nat) ∧
      blockAt hFit.blocks 32 = some ⟨4112, false⟩ ∧ (32:Nat) ≤ 4112 ∧
      (WSIZE + TSIZE ≤ 4112 - 32 →
        blockAt (place hFit 32 32).blocks 32 = some ⟨32, true⟩ ∧
        blockAt (place hFit 32 32).blocks 64 = some ⟨4080, false⟩ ∧
        (place hFit 32 32).bins =
          insert_block (delete_block hFit 32) 64 4080)) ∧
    (wfB hFit = true ∧ 0 < (4100:Nat) ∧
      blockAt hFit.blocks 32 = some ⟨4112, false⟩ ∧ (4100:Nat) ≤ 4112 ∧
      (4112 - 4100 < WSIZE + TSIZE →
        blockAt (place hFit 32 4100).blocks 32 = some ⟨4112, true⟩ ∧
        (place hFit 32 4100).bins = delete_block hFit 32)) :=
  ⟨⟨by decide, by decide, by decide, by decide,
    fun hc => by
      have hr := (c5_place hFit 32 4112 32 (by decide) (by decide) (by decide)
        (by decide)).1 hc
      simpa using hr⟩,
   ⟨by decide, by decide, by decide, by decide,
    fun hc => by
      have hr := (c5_place hFit 32 4112 4100 (by decide) (by decide) (by decide)
        (by decide)).2 hc
      simpa using hr⟩⟩

/-! ### Coalescing: computation and the no-adjacent-free invariant -/

/-- Computation of `coalesce` on a decomposed heap: the four boundary-tag
cases merge the freed block at `q` with whichever neighbours are free. -/
theorem coalesce_compute (h : Heap) (A : List Blk) (pr : Blk) (s : Nat)
    (nx : Blk) (Y : List Blk) (q : Nat)
    (hdec : h.blocks = A ++ pr :: ⟨s, false⟩ :: nx :: Y)
    (hq : q = heapStart + sizesSum (A ++ [pr]))
    (hpos : ∀ x ∈ A ++ [pr], 0 < x.size) (hs : 0 < s) :
    (coalesce h q).1.blocks =
      (if pr.alloc then
        (if nx.alloc then h.blocks
         else A ++ pr :: ⟨s + nx.size, false⟩ :: Y)
       else
        (if nx.alloc then A ++ ⟨s + pr.size, false⟩ :: nx :: Y
         else A ++ ⟨s + pr.size + nx.size, false⟩ :: Y)) ∧
    (coalesce h q).2 = (if pr.alloc then q else q - pr.size) := by
  have hsplit : h.blocks = (A ++ [pr]) ++ ⟨s, false⟩ :: nx :: Y := by
    rw [hdec]; simp
  have hlen1 : (A ++ [pr]).length = A.length + 1 := by simp
  have hidx : idxOf h.blocks q = some (A.length + 1) := by
    rw [hsplit, hq]
    rw [idxOf_resolve (A ++ [pr]) ⟨s, false⟩ (nx :: Y) hpos, hlen1]
  have hba : blockAt h.blocks q = some ⟨s, false⟩ := by
    rw [hsplit, hq]
    exact blockAt_resolve (A ++ [pr]) ⟨s, false⟩ (nx :: Y) hpos
  have hsize : sizeAt h q = s := by simp [sizeAt, hba]
  have hgetprev : h.blocks.get? (A.length + 1 - 1) = some pr := by
    rw [hdec]
    simp only [Nat.add_sub_cancel]
    rw [List.get?_append_right (le_refl A.length)]
    simp
  have hgetnext : h.blocks.get? (A.length + 1 + 1) = some nx := by
    rw [hdec]
    rw [List.get?_append_right (by omega : A.length ≤ A.length + 1 + 1)]
    have : A.length + 1 + 1 - A.length = 2 := by omega
    rw [this]
    rfl
  have htake1 : h.blocks.take (A.length + 1) = A ++ [pr] := by
    rw [hsplit]
    exact List.take_left' hlen1
  have htake0 : h.blocks.take (A.length + 1 - 1) = A := by
    rw [hdec]
    simp only [Nat.add_sub_cancel]
    exact List.take_left' rfl
  have hdrop2 : h.blocks.drop (A.length + 1 + 1) = nx :: Y := by
    have hsplit2 : h.blocks = (A ++ [pr, ⟨s, false⟩]) ++ nx :: Y := by
      rw [hdec]; simp
    rw [hsplit2]
    exact List.drop_left' (by simp)
  have hdrop3 : h.blocks.drop (A.length + 1 + 2) = Y := by
    have hsplit3 : h.blocks = (A ++ [pr, ⟨s, false⟩, nx]) ++ Y := by
      rw [hdec]; simp
    rw [hsplit3]
    exact List.drop_left' (by simp)
  have hgetprevE : h.blocks[A.length]? = some pr := by
    rw [← List.get?_eq_getElem?]
    simpa using hgetprev
  have hgetnextE : h.blocks[A.length + 1 + 1]? = some nx := by
    rw [← List.get?_eq_getElem?]
    exact hgetnext
  have htake0E : List.take A.length h.blocks = A := by
    simpa using htake0
  unfold coalesce
  rw [hidx]
  cases hpra : pr.alloc <;> cases hnxa : nx.alloc <;>
    simp [hsize, hgetprev, hgetnext, hgetprevE, hgetnextE, hpra, hnxa,
      htake0, htake0E, htake1, hdrop2, hdrop3]

/-- Appending after an allocated block preserves the adjacency invariant. -/
theorem chain'_glue (A : List Blk) (pr : Blk) (rest : List Blk)
    (hc1 : List.Chain' adjOK (A ++ [pr])) (hc2 : List.Chain' adjOK rest)
    (hpr : pr.alloc = true ∨ (∀ y ∈ rest.head?, y.alloc = true)) :
    List.Chain' adjOK (A ++ pr :: rest) := by
  have hsplit : A ++ pr :: rest = (A ++ [pr]) ++ rest := by simp
  rw [hsplit, List.chain'_append]
  refine ⟨hc1, hc2, ?_⟩
  intro x hx y hy
  rw [List.getLast?_concat] at hx
  have hxpr : pr = x := by
    simpa using hx
  subst hxpr
  rcases hpr with hpr | hpr
  · exact Or.inl hpr
  · exact Or.inr (hpr y hy)

theorem chain'_cons_of_alloc (b : Blk) (Y : List Blk) (hb : b.alloc = true)
    (hc : List.Chain' adjOK Y) : List.Chain' adjOK (b :: Y) := by
  rcases Y with _ | ⟨y, Y'⟩
  · exact List.chain'_singleton b
  · exact List.chain'_cons.mpr ⟨Or.inl hb, hc⟩

theorem chain'_cons_of_head (f : Blk) (Y : List Blk)
    (hheadY : ∀ y ∈ Y.head?, y.alloc = true)
    (hc : List.Chain' adjOK Y) : List.Chain' adjOK (f :: Y) := by
  rcases Y with _ | ⟨y, Y'⟩
  · exact List.chain'_singleton f
  · exact List.chain'_cons.mpr ⟨Or.inr (hheadY y rfl), hc⟩

/-- Context of a single free block at address `q` inside a chain that is
otherwise free of free-free adjacencies: the predecessor is allocated and
the successor (when present) is allocated. -/
def FreeCtx (h : Heap) (q : Nat) : Prop :=
  ∃ A pr s Y, h.blocks = A ++ pr :: ⟨s, false⟩ :: Y ∧
    q = heapStart + sizesSum (A ++ [pr]) ∧
    (∀ x ∈ A ++ [pr], 0 < x.size) ∧ 0 < s ∧
    pr.alloc = true ∧ (∀ y ∈ Y.head?, y.alloc = true) ∧
    List.Chain' adjOK (A ++ [pr]) ∧ List.Chain' adjOK Y

theorem FreeCtx_chain (h : Heap) (q : Nat) (hctx : FreeCtx h q) :
    noAdjFree h.blocks := by
  obtain ⟨A, pr, s, Y, hdec, -, -, -, hpra, hheadY, hc1, hc2⟩ := hctx
  rw [noAdjFree, hdec]
  exact chain'_glue A pr _ hc1 (chain'_cons_of_head _ Y hheadY hc2) (Or.inl hpra)

/-- Context of a newly freed block at address `q`: the rest of the chain has
no free-free adjacency, but the new block's own neighbours may be free (and
are then interior blocks). -/
def PreCtx (h : Heap) (q : Nat) : Prop :=
  ∃ A pr s nx Y, h.blocks = A ++ pr :: ⟨s, false⟩ :: nx :: Y ∧
    q = heapStart + sizesSum (A ++ [pr]) ∧
    (∀ x ∈ A ++ [pr], 0 < x.size) ∧ 0 < s ∧
    List.Chain' adjOK (A ++ [pr]) ∧ List.Chain' adjOK (nx :: Y) ∧
    (pr.alloc = false → A ≠ []) ∧ (nx.alloc = false → Y ≠ [])

/-- Master lemma of the coalescer: from a newly freed block's context,
`coalesce` re-establishes the free-block context (and hence the
no-adjacent-free invariant) at the returned address. -/
theorem coalesce_ctx (h : Heap) (q : Nat) (hp : PreCtx h q) :
    FreeCtx (coalesce h q).1 (coalesce h q).2 := by
  obtain ⟨A, pr, s, nx, Y, hdec, hq, hpos, hs, hc1, hc2, hprA, hnxY⟩ := hp
  obtain ⟨hblocks, hptr⟩ := coalesce_compute h A pr s nx Y q hdec hq hpos hs
  have hsum : sizesSum (A ++ [pr]) = sizesSum A + pr.size := by
    rw [sizesSum_append, sizesSum_cons, sizesSum_nil]
    omega
  have hposA : ∀ x ∈ A, 0 < x.size := fun x hx => hpos x (by simp [hx])
  cases hpra : pr.alloc <;> cases hnxa : nx.alloc <;>
    (rw [hpra] at hblocks hptr; rw [hnxa] at hblocks; simp at hblocks hptr)
  · -- case 4: both neighbours free
    obtain ⟨A₀, pr₂, hA⟩ : ∃ A₀ pr₂, A = A₀ ++ [pr₂] := by
      rcases List.eq_nil_or_concat A with hnil | ⟨A₀, pr₂, hcc⟩
      · exact absurd hnil (hprA hpra)
      · exact ⟨A₀, pr₂, by simpa [List.concat_eq_append] using hcc⟩
    have hc1' : List.Chain' adjOK (A₀ ++ [pr₂]) ∧ adjOK pr₂ pr := by
      have := hc1
      rw [hA] at this
      rw [show A₀ ++ [pr₂] ++ [pr] = A₀ ++ pr₂ :: pr :: [] by simp,
        List.chain'_append_cons_cons] at this
      exact ⟨this.1, this.2.1⟩
    have hpr2 : pr₂.alloc = true := by
      rcases hc1'.2 with hh | hh
      · exact hh
      · rw [hpra] at hh; exact absurd hh (by simp)
    obtain ⟨y, Y', hY⟩ : ∃ y Y', Y = y :: Y' := by
      rcases Y with _ | ⟨y, Y'⟩
      · exact absurd rfl (hnxY hnxa)
      · exact ⟨y, Y', rfl⟩
    have hyalloc : y.alloc = true := by
      rw [hY, List.chain'_cons] at hc2
      rcases hc2.1 with hh | hh
      · rw [hnxa] at hh; exact absurd hh (by simp)
      · exact hh
    refine ⟨A₀, pr₂, s + pr.size + nx.size, Y, ?_, ?_, ?_, by omega, hpr2, ?_, hc1'.1, ?_⟩
    · rw [hblocks, hA]; simp
    · rw [hptr, hq, hsum, hA]
      rw [show sizesSum (A₀ ++ [pr₂]) + pr.size = sizesSum (A₀ ++ [pr₂]) + pr.size from rfl]
      omega
    · intro x hx
      apply hpos
      rw [hA]
      simp only [List.mem_append, List.mem_cons] at hx ⊢
      tauto
    · intro z hz
      rw [hY] at hz
      simp only [List.head?_cons, Option.mem_def, Option.some.injEq] at hz
      rw [← hz]
      exact hyalloc
    · exact (List.Chain'.tail hc2)
  · -- case 3: previous free, next allocated
    obtain ⟨A₀, pr₂, hA⟩ : ∃ A₀ pr₂, A = A₀ ++ [pr₂] := by
      rcases List.eq_nil_or_concat A with hnil | ⟨A₀, pr₂, hcc⟩
      · exact absurd hnil (hprA hpra)
      · exact ⟨A₀, pr₂, by simpa [List.concat_eq_append] using hcc⟩
    have hc1' : List.Chain' adjOK (A₀ ++ [pr₂]) ∧ adjOK pr₂ pr := by
      have := hc1
      rw [hA] at this
      rw [show A₀ ++ [pr₂] ++ [pr] = A₀ ++ pr₂ :: pr :: [] by simp,
        List.chain'_append_cons_cons] at this
      exact ⟨this.1, this.2.1⟩
    have hpr2 : pr₂.alloc = true := by
      rcases hc1'.2 with hh | hh
      · exact hh
      · rw [hpra] at hh; exact absurd hh (by simp)
    refine ⟨A₀, pr₂, s + pr.size, nx :: Y, ?_, ?_, ?_, by omega, hpr2, ?_, hc1'.1, hc2⟩
    · rw [hblocks, hA]; simp
    · rw [hptr, hq, hsum, hA]
      omega
    · intro x hx
      apply hpos
      rw [hA]
      simp only [List.mem_append, List.mem_cons] at hx ⊢
      tauto
    · intro z hz
      simp only [List.head?_cons, Option.mem_def, Option.some.injEq] at hz
      rw [← hz]
      exact hnxa
  · -- case 2: previous allocated, next free
    obtain ⟨y, Y', hY⟩ : ∃ y Y', Y = y :: Y' := by
      rcases Y with _ | ⟨y, Y'⟩
      · exact absurd rfl (hnxY hnxa)
      · exact ⟨y, Y', rfl⟩
    have hyalloc : y.alloc = true := by
      rw [hY, List.chain'_cons] at hc2
      rcases hc2.1 with hh | hh
      · rw [hnxa] at hh; exact absurd hh (by simp)
      · exact hh
    refine ⟨A, pr, s + nx.size, Y, ?_, ?_, hpos, by omega, hpra, ?_, hc1, ?_⟩
    · rw [hblocks]
    · rw [hptr, hq]
    · intro z hz
      rw [hY] at hz
      simp only [List.head?_cons, Option.mem_def, Option.some.injEq] at hz
      rw [← hz]
      exact hyalloc
    · exact (List.Chain'.tail hc2)
  · -- case 1: both neighbours allocated
    refine ⟨A, pr, s, nx :: Y, ?_, ?_, hpos, hs, hpra, ?_, hc1, hc2⟩
    · rw [hblocks, hdec]
    · rw [hptr, hq]
    · intro z hz
      simp only [List.head?_cons, Option.mem_def, Option.some.injEq] at hz
      rw [← hz]
      exact hnxa

/-- Placement preserves the no-adjacent-free invariant: the split stamps an
allocated block before the free residue, whose successor was already
allocated. -/
theorem place_chain (h : Heap) (q asize : Nat) (hctx : FreeCtx h q) :
    noAdjFree (place h q asize).blocks := by
  obtain ⟨A, pr, s, Y, hdec, hq, hpos, hs, hpra, hheadY, hc1, hc2⟩ := hctx
  have hsplit : h.blocks = (A ++ [pr]) ++ ⟨s, false⟩ :: Y := by rw [hdec]; simp
  have hlen1 : (A ++ [pr]).length = A.length + 1 := by simp
  have hidx : idxOf h.blocks q = some (A.length + 1) := by
    rw [hsplit, hq, idxOf_resolve _ _ _ hpos, hlen1]
  have hba : blockAt h.blocks q = some ⟨s, false⟩ := by
    rw [hsplit, hq]; exact blockAt_resolve _ _ _ hpos
  have hsz : sizeAt h q = s := by simp [sizeAt, hba]
  have htake : h.blocks.take (A.length + 1) = A ++ [pr] := by
    rw [hsplit]; exact List.take_left' hlen1
  have hdrop : h.blocks.drop (A.length + 1 + 1) = Y := by
    rw [show h.blocks = (A ++ [pr, ⟨s, false⟩]) ++ Y by rw [hdec]; simp]
    exact List.drop_left' (by simp)
  have hilt : A.length + 1 < h.blocks.length := by
    rw [hdec]; simp
  have hset : h.blocks.set (A.length + 1) ⟨s, true⟩ = A ++ pr :: ⟨s, true⟩ :: Y := by
    rw [List.set_eq_take_cons_drop _ hilt, htake, hdrop]
    simp
  unfold place
  rw [hidx]
  simp only [hsz]
  by_cases hcond : WSIZE + TSIZE ≤ s - asize
  · rw [if_pos hcond]
    simp only [htake, hdrop]
    rw [noAdjFree, show (A ++ [pr]) ++ ⟨asize, true⟩ :: ⟨s - asize, false⟩ :: Y =
      A ++ pr :: ⟨asize, true⟩ :: ⟨s - asize, false⟩ :: Y by simp]
    exact chain'_glue A pr _ hc1
      (chain'_cons_of_alloc _ _ rfl (chain'_cons_of_head _ Y hheadY hc2))
      (Or.inl hpra)
  · rw [if_neg hcond]
    rw [noAdjFree]
    simp only [hset]
    exact chain'_glue A pr _ hc1 (chain'_cons_of_alloc _ _ rfl hc2) (Or.inl hpra)

/-- Decomposition of the chain around an interior block. -/
theorem interior_decomp (h : Heap) (p i : Nat)
    (hwf : chainWFB h.blocks = true) (hidx : idxOf h.blocks p = some i)
    (h0 : 0 < i) (hlast : i + 1 < h.blocks.length) :
    ∃ A pr b nx Y,
      h.blocks = A ++ pr :: b :: nx :: Y ∧
      h.blocks.get? i = some b ∧
      p = heapStart + sizesSum (A ++ [pr]) ∧
      (∀ x ∈ A ++ [pr], 0 < x.size) ∧ 0 < b.size ∧
      A.length + 1 = i := by
  obtain ⟨hilt, haddr⟩ := idxOf_some h.blocks p i hidx
  have h1 : i - 1 < h.blocks.length := by omega
  have htake : h.blocks.take i = h.blocks.take (i - 1) ++ [h.blocks[i - 1]] := by
    have hi1 : i = (i - 1) + 1 := by omega
    conv_lhs => rw [hi1]
    rw [List.take_succ, List.getElem?_eq_getElem h1]
    rfl
  refine ⟨h.blocks.take (i - 1), h.blocks[i - 1], h.blocks[i], h.blocks[i + 1],
    h.blocks.drop (i + 2), ?_, ?_, ?_, ?_, ?_, ?_⟩
  · conv_lhs => rw [← List.take_append_drop (i - 1) h.blocks]
    rw [List.drop_eq_getElem_cons h1, show i - 1 + 1 = i from by omega,
      List.drop_eq_getElem_cons hilt, List.drop_eq_getElem_cons hlast,
      show i + 1 + 1 = i + 2 from by omega]
  · rw [List.get?_eq_getElem?, List.getElem?_eq_getElem hilt]
  · rw [haddr, addrOf, htake]
  · rw [← htake]
    exact wf_take_pos h hwf i hilt
  · have hmem : h.blocks[i] ∈ h.blocks.take (i + 1) := by
      have ht : h.blocks.take (i + 1) = h.blocks.take i ++ [h.blocks[i]] := by
        rw [List.take_succ, List.getElem?_eq_getElem hilt]
        rfl
      rw [ht]
      exact List.mem_append_right _ (List.mem_singleton_self _)
    exact wf_take_pos h hwf (i + 1) hlast _ hmem
  · rw [List.length_take]
    omega

/-- Liveness of a block at `p`: it resolves to an allocated block strictly
between the sentinels. -/
def liveAt (bs : List Blk) (p : Nat) : Prop :=
  ∃ i, idxOf bs p = some i ∧ 0 < i ∧ i + 1 < bs.length ∧
    ∃ b, bs.get? i = some b ∧ b.alloc = true

theorem isLiveAllocB_liveAt (h : Heap) (p : Nat) (hl : isLiveAllocB h p = true) :
    liveAt h.blocks p := by
  unfold isLiveAllocB at hl
  rcases hidx : idxOf h.blocks p with _ | i
  · rw [hidx] at hl; simp at hl
  · rw [hidx] at hl
    simp only [Bool.and_eq_true, decide_eq_true_eq] at hl
    obtain ⟨⟨h0, h1⟩, h2⟩ := hl
    rcases hget : h.blocks.get? i with _ | b
    · rw [hget] at h2; simp at h2
    · rw [hget] at h2
      simp at h2
      exact ⟨i, hidx, h0, h1, b, hget, h2⟩

/-- Core lemma for `mm_free`: freeing a live interior block of a
chain-well-formed heap that has no adjacent free blocks restores the
invariant through `coalesce`. -/
theorem mm_free_chain (h : Heap) (p : Nat)
    (hwf : chainWFB h.blocks = true) (hna : noAdjFree h.blocks) (hlive : liveAt h.blocks p) :
    noAdjFree (mm_free h (some p)).blocks := by
  obtain ⟨i, hidx, h0, hlast, b, hget, hballoc⟩ := hlive
  obtain ⟨A, pr, b', nx, Y, hdec, hget', haddr, hpos, hbpos, hAi⟩ :=
    interior_decomp h p i hwf hidx h0 hlast
  rw [hget] at hget'
  injection hget' with hbb
  subst hbb
  have hba : blockAt h.blocks p = some b := by
    unfold blockAt
    rw [hidx, Option.some_bind]
    exact hget
  have hsz : sizeAt h p = b.size := by simp [sizeAt, hba]
  have hilt : i < h.blocks.length := by omega
  have htakei : h.blocks.take i = A ++ [pr] := by
    rw [hdec, ← hAi,
      show A ++ pr :: b :: nx :: Y = (A ++ [pr]) ++ b :: nx :: Y by simp]
    exact List.take_left' (by simp)
  have hdropi : h.blocks.drop (i + 1) = nx :: Y := by
    rw [hdec, ← hAi,
      show A ++ pr :: b :: nx :: Y = (A ++ [pr, b]) ++ nx :: Y by simp]
    exact List.drop_left' (by simp)
  have hset : h.blocks.set i ⟨b.size, false⟩ = A ++ pr :: ⟨b.size, false⟩ :: nx :: Y := by
    rw [List.set_eq_take_cons_drop _ hilt, htakei, hdropi]
    simp
  have hchains : List.Chain' adjOK (A ++ [pr]) ∧ List.Chain' adjOK (nx :: Y) := by
    have := hna
    rw [noAdjFree, hdec, List.chain'_append_cons_cons] at this
    exact ⟨this.1, (this.2.2).tail⟩
  have hprA : pr.alloc = false → A ≠ [] := by
    intro hpf hAnil
    obtain ⟨-, ⟨pb, hpb, hpba, -⟩, -, -⟩ := chainWFB_parts h.blocks hwf
    rw [hdec, hAnil] at hpb
    simp only [List.nil_append, List.head?_cons, Option.some.injEq] at hpb
    rw [← hpb, hpf] at hpba
    exact absurd hpba (by simp)
  have hnxY : nx.alloc = false → Y ≠ [] := by
    intro hnf hYnil
    obtain ⟨-, -, ⟨eb, heb, heba, -⟩, -⟩ := chainWFB_parts h.blocks hwf
    rw [hdec, hYnil,
      show A ++ pr :: b :: nx :: [] = (A ++ [pr, b]) ++ [nx] by simp,
      List.getLast?_concat] at heb
    simp only [Option.some.injEq] at heb
    rw [← heb, hnf] at heba
    exact absurd heba (by simp)
  have hfree : mm_free h (some p) =
      (coalesce ⟨h.blocks.set i ⟨sizeAt h p, false⟩,
        insert_block h.bins p (sizeAt h p)⟩ p).1 := by
    simp only [mm_free]
    rw [hidx]
  rw [hfree, hsz]
  set h2 : Heap := ⟨h.blocks.set i ⟨b.size, false⟩, insert_block h.bins p b.size⟩ with hh2
  have hpre : PreCtx h2 p := by
    refine ⟨A, pr, b.size, nx, Y, ?_, haddr, hpos, hbpos, hchains.1, hchains.2, hprA, hnxY⟩
    show h.blocks.set i ⟨b.size, false⟩ = A ++ pr :: ⟨b.size, false⟩ :: nx :: Y
    exact hset
  exact FreeCtx_chain _ _ (coalesce_ctx h2 p hpre)

theorem find_block_list_mem (h : Heap) (l : List Nat) (a bp : Nat)
    (hf : find_block_list h l a = some bp) : bp ∈ l := by
  induction l with
  | nil => simp [find_block_list] at hf
  | cons x rest ih =>
    rw [find_block_list] at hf
    by_cases hc : a ≤ sizeAt h x
    · rw [if_pos hc] at hf
      injection hf with hf
      simp [hf]
    · rw [if_neg hc] at hf
      simp [ih hf]

theorem ffGo_mem (h : Heap) (a : Nat) :
    ∀ fuel i bp, ffGo h a fuel i = some bp → ∃ j, bp ∈ h.bins.getD j [] := by
  intro fuel
  induction fuel with
  | zero => intro i bp hf; simp [ffGo] at hf
  | succ n ih =>
    intro i bp hf
    rw [ffGo] at hf
    rcases hfb : find_block_list h (h.bins.getD i []) a with _ | bp'
    · rw [hfb] at hf
      exact ih (i + 1) bp hf
    · rw [hfb] at hf
      injection hf with hf
      subst hf
      exact ⟨i, find_block_list_mem h _ a bp' hfb⟩

/-- A successful first-fit search returns an address listed in some bin. -/
theorem find_fit_mem (h : Heap) (a bp : Nat) (hf : find_fit h a = some bp) :
    ∃ l ∈ h.bins, bp ∈ l := by
  obtain ⟨j, hj⟩ := ffGo_mem h a _ _ bp hf
  by_cases hjl : j < h.bins.length
  · refine ⟨h.bins.getD j [], ?_, hj⟩
    rw [List.getD_eq_getElem _ _ hjl]
    exact List.getElem_mem _
  · rw [List.getD_eq_default _ _ (by omega)] at hj
    simp at hj

/-- Every free block of a well-formed heap that already satisfies the
invariant sits in a free-block context. -/
theorem free_block_ctx (h : Heap) (bp : Nat) (b : Blk)
    (hwf : chainWFB h.blocks = true) (hna : noAdjFree h.blocks)
    (hb : blockAt h.blocks bp = some b) (hfree : b.alloc = false) :
    FreeCtx h bp := by
  obtain ⟨i, hidx, hilt, haddr, hget⟩ := blockAt_some h.blocks bp b hb
  obtain ⟨hlen, ⟨pb, hpb, hpba, -⟩, ⟨eb, heb, heba, -⟩, -⟩ := chainWFB_parts h.blocks hwf
  have h0 : 0 < i := by
    rcases Nat.eq_zero_or_pos i with hz | hp
    · exfalso
      subst hz
      rw [List.get?_zero, hpb] at hget
      injection hget with hget
      rw [hget, hfree] at hpba
      exact absurd hpba (by simp)
    · exact hp
  have hlasti : i + 1 < h.blocks.length := by
    rcases Nat.lt_or_ge (i + 1) h.blocks.length with hlt | hge
    · exact hlt
    · exfalso
      have hieq : h.blocks.length - 1 = i := by omega
      rw [List.getLast?_eq_get?, hieq, hget] at heb
      injection heb with heb
      rw [← heb, hfree] at heba
      exact absurd heba (by simp)
  obtain ⟨A, pr, b', nx, Y, hdec, hget', haddr', hpos, hbpos, hAi⟩ :=
    interior_decomp h bp i hwf hidx h0 hlasti
  rw [hget] at hget'
  injection hget' with hbb
  subst hbb
  have hchains := hna
  rw [noAdjFree, hdec, List.chain'_append_cons_cons] at hchains
  obtain ⟨hc1, hprb, hc2⟩ := hchains
  have hpra : pr.alloc = true := by
    rcases hprb with hh | hh
    · exact hh
    · rw [hfree] at hh
      exact absurd hh (by simp)
  rw [List.chain'_cons] at hc2
  have hnxa : nx.alloc = true := by
    rcases hc2.1 with hh | hh
    · rw [hfree] at hh
      exact absurd hh (by simp)
    · exact hh
  have hbeq : b = ⟨b.size, false⟩ := by
    cases b
    simp_all
  refine ⟨A, pr, b.size, nx :: Y, ?_, haddr', hpos, hbpos, hpra, ?_, hc1, hc2.2⟩
  · rw [hdec, ← hbeq]
  · intro y hy
    simp only [List.head?_cons, Option.mem_def, Option.some.injEq] at hy
    rw [← hy]
    exact hnxa

/-- A granted heap extension creates a free block before the fresh epilogue
and coalesces it, yielding a free-block context at the returned address. -/
theorem extend_ctx (h : Heap) (words : Nat)
    (hwf : chainWFB h.blocks = true) (hna : noAdjFree h.blocks) (hw : 0 < words) :
    ∃ q, (extend_heap h words true).2 = some q ∧
      FreeCtx (extend_heap h words true).1 q := by
  obtain ⟨hlen, ⟨pb, hpb, hpba, -⟩, -, -⟩ := chainWFB_parts h.blocks hwf
  set sz := if words % 2 = 1 then (words + 1) * WSIZE else words * WSIZE with hsz
  have hszpos : 0 < sz := by
    rw [hsz]
    split_ifs <;> simp [WSIZE] <;> omega
  set n := h.blocks.length with hn
  set bp := addrOf h.blocks (n - 1) with hbp
  set h1 : Heap := ⟨h.blocks.take (n - 1) ++ [⟨sz, false⟩, ⟨0, true⟩],
    insert_block h.bins bp sz⟩ with hh1
  have hext : extend_heap h words true = ((coalesce h1 bp).1, some (coalesce h1 bp).2) := by
    unfold extend_heap
    simp only [if_true, ← hsz, ← hn, ← hbp, ← hh1]
  obtain ⟨A₀, pl, hA⟩ : ∃ A₀ pl, h.blocks.take (n - 1) = A₀ ++ [pl] := by
    rcases List.eq_nil_or_concat (h.blocks.take (n - 1)) with hnil | ⟨A₀, pl, hcc⟩
    · exfalso
      have : (h.blocks.take (n - 1)).length = n - 1 := by
        rw [List.length_take]
        omega
      rw [hnil] at this
      simp at this
      omega
    · exact ⟨A₀, pl, by simpa [List.concat_eq_append] using hcc⟩
  have hpre : PreCtx h1 bp := by
    refine ⟨A₀, pl, sz, ⟨0, true⟩, [], ?_, ?_, ?_, hszpos, ?_, ?_, ?_, ?_⟩
    · show h.blocks.take (n - 1) ++ [⟨sz, false⟩, ⟨0, true⟩] =
        A₀ ++ pl :: ⟨sz, false⟩ :: ⟨0, true⟩ :: []
      rw [hA]
      simp
    · rw [hbp, addrOf, hA]
    · rw [← hA]
      exact wf_take_pos h hwf (n - 1) (by omega)
    · rw [← hA]
      exact List.Chain'.take hna (n - 1)
    · exact List.chain'_singleton _
    · intro hpf hAnil
      have hhead : h.blocks.head? = some pl := by
        have hd : h.blocks = (A₀ ++ [pl]) ++ h.blocks.drop (n - 1) := by
          rw [← hA, List.take_append_drop]
        rw [hd, hAnil]
        simp
      rw [hpb] at hhead
      injection hhead with hhead
      rw [hhead, hpf] at hpba
      exact absurd hpba (by simp)
    · intro hcontra
      simp at hcontra
  refine ⟨(coalesce h1 bp).2, ?_, ?_⟩
  · rw [hext]
  · rw [hext]
    exact coalesce_ctx h1 bp hpre

/-- Allocation preserves the no-adjacent-free invariant: placing on a found
free block keeps its allocated neighbours, and the extension path coalesces
the fresh block before placing on it. -/
theorem mm_malloc_chain (h : Heap) (s : Nat) (g : Bool)
    (hwf : wfB h = true) (hna : noAdjFree h.blocks) :
    noAdjFree (mm_malloc h s g).1.blocks := by
  have hcwf := wfB_chainWFB h hwf
  by_cases hs : s = 0
  · simpa [mm_malloc, hs] using hna
  · rcases hff : find_fit h (malloc_asize s) with _ | bp
    · rcases hg : g with _ | _
      · have hnone : mm_malloc h s false = (h, none) := by
          simp [mm_malloc, hs, hff, extend_heap]
        rw [hnone]
        exact hna
      · set asize := malloc_asize s with hasize
        set e0 := max asize CHUNKSIZE with he0
        set e1 := if e0 % WSIZE ≠ 0 then (e0 / WSIZE + 1) * WSIZE else e0 with he1
        have hwpos : 0 < e1 / WSIZE := by
          have h1 : CHUNKSIZE ≤ e0 := le_max_right _ _
          have h2 : e0 ≤ e1 := by
            rw [he1]
            split_ifs with hh
            · simp only [WSIZE] at *
              omega
            · exact le_refl _
          simp only [WSIZE, CHUNKSIZE] at *
          omega
        rcases hE : extend_heap h (e1 / WSIZE) true with ⟨h1, r⟩
        obtain ⟨q, hq2, hctx⟩ := extend_ctx h (e1 / WSIZE) hcwf hna hwpos
        rw [hE] at hq2 hctx
        simp only at hq2 hctx
        subst hq2
        have hred : mm_malloc h s true = (place h1 q asize, some q) := by
          simp only [mm_malloc, hs, ite_false, hff, ← hasize, ← he0, ← he1, hE]
        rw [hred]
        exact place_chain h1 q asize hctx
    · obtain ⟨l, hl, hbpin⟩ := find_fit_mem h _ bp hff
      obtain ⟨-, -, -, -, hbv, -⟩ := wfB_parts h hwf
      have hblk : ∃ b, blockAt h.blocks bp = some b ∧ b.alloc = false := by
        unfold binsValidB at hbv
        rw [List.all_eq_true] at hbv
        have h1 := hbv l hl
        rw [List.all_eq_true] at h1
        have h2 := h1 bp hbpin
        rcases hb : blockAt h.blocks bp with _ | b
        · rw [hb] at h2
          simp at h2
        · rw [hb] at h2
          simp at h2
          exact ⟨b, rfl, by simpa using h2⟩
      obtain ⟨b, hb, hfree⟩ := hblk
      have hctx := free_block_ctx h bp b hcwf hna hb hfree
      have hred : mm_malloc h s g = (place h bp (malloc_asize s), some bp) := by
        simp [mm_malloc, hs, hff]
      rw [hred]
      exact place_chain h bp _ hctx

/-! ### Frame lemmas: address stability across local surgeries -/

theorem idxOfGo_found_prefix (X l : List Blk) (a : Nat) :
    ∀ cur i j, idxOfGo X a cur i = some j → idxOfGo (X ++ l) a cur i = some j := by
  induction X with
  | nil => intro cur i j hj; simp [idxOfGo] at hj
  | cons b X ih =>
    intro cur i j hj
    rw [idxOfGo] at hj
    rw [List.cons_append, idxOfGo]
    by_cases hc : cur = a
    · rwa [if_pos hc] at hj ⊢
    · rw [if_neg hc] at hj ⊢
      exact ih _ _ _ hj

theorem idxOfGo_detect_prefix (X l : List Blk) (a : Nat) :
    ∀ cur i j, idxOfGo (X ++ l) a cur i = some j → j - i < X.length →
      idxOfGo X a cur i = some j := by
  induction X with
  | nil => intro cur i j _ hlt; simp at hlt
  | cons b X ih =>
    intro cur i j hj hlt
    rw [List.cons_append, idxOfGo] at hj
    rw [idxOfGo]
    by_cases hc : cur = a
    · rwa [if_pos hc] at hj ⊢
    · rw [if_neg hc] at hj ⊢
      obtain ⟨hij, -, -⟩ := idxOfGo_some _ _ _ _ _ hj
      exact ih _ _ _ hj (by simp at hlt; omega)

theorem idxOfGo_shift (l : List Blk) (a : Nat) :
    ∀ cur i i' j, idxOfGo l a cur i = some j →
      idxOfGo l a cur i' = some (i' + (j - i)) := by
  induction l with
  | nil => intro cur i i' j hj; simp [idxOfGo] at hj
  | cons b l ih =>
    intro cur i i' j hj
    rw [idxOfGo] at hj ⊢
    by_cases hc : cur = a
    · rw [if_pos hc] at hj
      injection hj with hj
      subst hj
      rw [if_pos hc]
      simp
    · rw [if_neg hc] at hj ⊢
      obtain ⟨hij, -, -⟩ := idxOfGo_some _ _ _ _ _ hj
      have := ih _ _ (i' + 1) _ hj
      rw [this]
      congr 1
      omega

theorem idxOfGo_went_past (W Z : List Blk) (a : Nat) :
    ∀ cur i j, idxOfGo (W ++ Z) a cur i = some j → W.length ≤ j - i →
      idxOfGo Z a (cur + sizesSum W) (i + W.length) = some j := by
  induction W with
  | nil => intro cur i j hj _; simpa [sizesSum] using hj
  | cons b W ih =>
    intro cur i j hj hge
    rw [List.cons_append, idxOfGo] at hj
    by_cases hc : cur = a
    · rw [if_pos hc] at hj
      injection hj with hj
      simp at hge
      omega
    · rw [if_neg hc] at hj
      obtain ⟨hij, -, -⟩ := idxOfGo_some _ _ _ _ _ hj
      have hge' : W.length ≤ j - (i + 1) := by simp at hge; omega
      have := ih _ _ _ hj hge'
      rw [show cur + sizesSum (b :: W) = cur + b.size + sizesSum W by
        rw [sizesSum_cons]; omega,
        show i + (b :: W).length = i + 1 + W.length by simp; omega]
      exact this

/-- Address-level frame lemma: a surgery that replaces a region `M` of free
blocks by a region `M'` covering the same number of bytes preserves the
liveness of every allocated block. -/
theorem liveAt_frame (X M M' Z : List Blk) (p : Nat)
    (hsum : sizesSum M = sizesSum M')
    (hXpos : ∀ x ∈ X, 0 < x.size) (hM'pos : ∀ x ∈ M', 0 < x.size)
    (hMfree : ∀ x ∈ M, x.alloc = false) (hM' : M' ≠ [])
    (hlive : liveAt (X ++ M ++ Z) p) : liveAt (X ++ M' ++ Z) p := by
  have hM'len : 1 ≤ M'.length := by
    rcases M' with _ | _
    · exact absurd rfl hM'
    · simp
  obtain ⟨i, hidx, h0, hlast, b, hget, hballoc⟩ := hlive
  have hlenold : (X ++ M ++ Z).length = X.length + M.length + Z.length := by
    simp
    omega
  have hlennew : (X ++ M' ++ Z).length = X.length + M'.length + Z.length := by
    simp
    omega
  rcases Nat.lt_or_ge i X.length with hiX | hiX
  · have hfound : idxOfGo X p heapStart 0 = some i := by
      apply idxOfGo_detect_prefix X (M ++ Z) p heapStart 0 i
      · rw [← List.append_assoc]
        exact hidx
      · omega
    refine ⟨i, ?_, h0, ?_, b, ?_, hballoc⟩
    · rw [idxOf, List.append_assoc]
      exact idxOfGo_found_prefix X (M' ++ Z) p heapStart 0 i hfound
    · omega
    · rw [List.append_assoc, List.get?_append hiX] at hget
      rw [List.append_assoc, List.get?_append hiX]
      exact hget
  rcases Nat.lt_or_ge i (X.length + M.length) with hiM | hiM
  · exfalso
    have hgm : (X ++ M ++ Z).get? i = M.get? (i - X.length) := by
      rw [List.append_assoc, List.get?_append_right hiX,
        List.get?_append (by omega)]
    rw [hgm] at hget
    have hmem : b ∈ M := List.get?_mem hget
    rw [hMfree b hmem] at hballoc
    exact absurd hballoc (by simp)
  · have hidx0 : idxOfGo ((X ++ M) ++ Z) p heapStart 0 = some i := hidx
    have hidx' : idxOfGo Z p (heapStart + sizesSum (X ++ M)) (0 + (X ++ M).length)
        = some i := idxOfGo_went_past (X ++ M) Z p heapStart 0 i hidx0 (by simp; omega)
    obtain ⟨hbase, hzlen, hpval⟩ := idxOfGo_some Z p _ _ _ hidx'
    have hsum' : sizesSum (X ++ M') = sizesSum (X ++ M) := by
      rw [sizesSum_append, sizesSum_append, hsum]
    have hple : heapStart + sizesSum (X ++ M') ≤ p := by
      rw [hsum']
      omega
    have hskip : idxOfGo ((X ++ M') ++ Z) p heapStart 0 =
        idxOfGo Z p (heapStart + sizesSum (X ++ M')) (0 + (X ++ M').length) := by
      apply idxOfGo_append
      · intro x hx
        rcases List.mem_append.mp hx with h1 | h1
        · exact hXpos x h1
        · exact hM'pos x h1
      · exact hple
    have hshift := idxOfGo_shift Z p (heapStart + sizesSum (X ++ M))
      (0 + (X ++ M).length) (0 + (X ++ M').length) i hidx'
    refine ⟨i - (X.length + M.length) + (X.length + M'.length), ?_, ?_, ?_, b, ?_, hballoc⟩
    · show idxOfGo (X ++ M' ++ Z) p heapStart 0 = _
      rw [hskip, hsum', hshift]
      congr 1
      simp only [List.length_append]
      omega
    · omega
    · omega
    · have hgo : (X ++ M ++ Z).get? i = Z.get? (i - (X.length + M.length)) := by
        rw [List.get?_append_right (show (X ++ M).length ≤ i by
          simp only [List.length_append]; omega)]
        rw [show i - (X ++ M).length = i - (X.length + M.length) by
          simp only [List.length_append]]
      have hgn : (X ++ M' ++ Z).get? (i - (X.length + M.length) + (X.length + M'.length)) =
          Z.get? (i - (X.length + M.length)) := by
        rw [List.get?_append_right (show (X ++ M').length ≤
            i - (X.length + M.length) + (X.length + M'.length) by
          simp only [List.length_append]; omega)]
        rw [show i - (X.length + M.length) + (X.length + M'.length) - (X ++ M').length =
            i - (X.length + M.length) by
          simp only [List.length_append]; omega]
      rw [hgn, ← hgo]
      exact hget

/-- Local surgery on the block chain: a region `M` of free blocks is
replaced in place by a region `M'` covering the same number of bytes. -/
def Surgery (bs bs' : List Blk) : Prop :=
  ∃ X M M' Z, bs = X ++ M ++ Z ∧ bs' = X ++ M' ++ Z ∧
    sizesSum M = sizesSum M' ∧ (∀ x ∈ X, 0 < x.size) ∧
    (∀ x ∈ M', 0 < x.size) ∧ (∀ x ∈ M, x.alloc = false) ∧
    M ≠ [] ∧ M' ≠ []

theorem Surgery.live (bs bs' : List Blk) (p : Nat) (hs : Surgery bs bs')
    (hl : liveAt bs p) : liveAt bs' p := by
  obtain ⟨X, M, M', Z, h1, h2, h3, h4, h5, h6, -, h7⟩ := hs
  subst h1
  subst h2
  exact liveAt_frame X M M' Z p h3 h4 h5 h6 h7 hl

theorem Surgery.wf (bs bs' : List Blk) (hs : Surgery bs bs')
    (hwf : chainWFB bs = true) : chainWFB bs' = true := by
  obtain ⟨X, M, M', Z, h1, h2, hsum, hXpos, hM'pos, hMfree, hM, hM'⟩ := hs
  obtain ⟨hlen, ⟨pb, hpb, hpba, hpbs⟩, ⟨eb, heb, heba, hebs⟩, hpos⟩ :=
    chainWFB_parts bs hwf
  obtain ⟨m0, Mr, hMd⟩ : ∃ m0 Mr, M = m0 :: Mr := by
    rcases M with _ | ⟨m0, Mr⟩
    · exact absurd rfl hM
    · exact ⟨m0, Mr, rfl⟩
  have hX : X ≠ [] := by
    intro hXnil
    rw [h1, hXnil, hMd] at hpb
    simp at hpb
    rw [← hpb] at hpba
    rw [hMfree m0 (by simp [hMd])] at hpba
    exact absurd hpba (by simp)
  have hZ : Z ≠ [] := by
    intro hZnil
    obtain ⟨mL, ML, hML⟩ : ∃ mL ML, M = ML ++ [mL] := by
      rcases List.eq_nil_or_concat M with hnil | ⟨ML, mL, hcc⟩
      · exact absurd hnil hM
      · exact ⟨mL, ML, by simpa [List.concat_eq_append] using hcc⟩
    rw [h1, hZnil, hML] at heb
    rw [show X ++ (ML ++ [mL]) ++ [] = (X ++ ML) ++ [mL] by simp,
      List.getLast?_concat] at heb
    injection heb with heb
    rw [← heb] at heba
    rw [hMfree mL (by simp [hML])] at heba
    exact absurd heba (by simp)
  obtain ⟨z0, Zr, hZd⟩ : ∃ z0 Zr, Z = z0 :: Zr := by
    rcases Z with _ | ⟨z0, Zr⟩
    · exact absurd rfl hZ
    · exact ⟨z0, Zr, rfl⟩
  obtain ⟨x0, Xr, hXd⟩ : ∃ x0 Xr, X = x0 :: Xr := by
    rcases X with _ | ⟨x0, Xr⟩
    · exact absurd rfl hX
    · exact ⟨x0, Xr, rfl⟩
  obtain ⟨m0', Mr', hMd'⟩ : ∃ m0' Mr', M' = m0' :: Mr' := by
    rcases M' with _ | ⟨m0', Mr'⟩
    · exact absurd rfl hM'
    · exact ⟨m0', Mr', rfl⟩
  unfold chainWFB
  simp only [Bool.and_eq_true, decide_eq_true_eq]
  have hhead' : bs'.head? = some x0 := by
    rw [h2, hXd]
    simp
  have hhead : bs.head? = some x0 := by
    rw [h1, hXd]
    simp
  refine ⟨⟨⟨?_, ?_⟩, ?_⟩, ?_⟩
  · rw [h2, hXd, hZd]
    simp
    omega
  · rw [hhead']
    rw [hhead] at hpb
    injection hpb with hpb
    simp [hpb, hpba, hpbs]
  · have hl' : bs'.getLast? = some eb := by
      rw [h2, List.getLast?_append_of_ne_nil _ hZ]
      rw [h1, List.getLast?_append_of_ne_nil _ hZ] at heb
      exact heb
    rw [hl']
    simp [heba, hebs]
  · rw [h2, List.dropLast_append_of_ne_nil _ hZ, List.all_eq_true]
    intro x hx
    simp only [List.mem_append] at hx
    rcases hx with (hx | hx) | hx
    · simp [hXpos x hx]
    · simp [hM'pos x hx]
    · have hxx : x ∈ bs.dropLast := by
        rw [h1, List.dropLast_append_of_ne_nil _ hZ]
        exact List.mem_append_right _ hx
      simp [hpos x hxx]

theorem liveAt_prefix_ext (bs L : List Blk) (p : Nat) (hL : L ≠ [])
    (hlive : liveAt bs p) : liveAt (bs.dropLast ++ L) p := by
  obtain ⟨i, hidx, h0, hlast, b, hget, hballoc⟩ := hlive
  have hbs : bs ≠ [] := by
    intro hnil
    rw [hnil] at hlast
    simp at hlast
  have hdecomp : bs = bs.dropLast ++ [bs.getLast hbs] :=
    (List.dropLast_concat_getLast hbs).symm
  have hlenD : bs.dropLast.length = bs.length - 1 := List.length_dropLast bs
  have hiD : i < bs.dropLast.length := by omega
  have hfound : idxOfGo bs.dropLast p heapStart 0 = some i := by
    apply idxOfGo_detect_prefix bs.dropLast [bs.getLast hbs] p heapStart 0 i
    · rw [← hdecomp]
      exact hidx
    · omega
  have hLlen : 1 ≤ L.length := by
    rcases L with _ | _
    · exact absurd rfl hL
    · simp
  refine ⟨i, ?_, h0, ?_, b, ?_, hballoc⟩
  · exact idxOfGo_found_prefix _ L p heapStart 0 i hfound
  · simp only [List.length_append]
    omega
  · rw [List.get?_append hiD]
    rw [hdecomp, List.get?_append hiD] at hget
    exact hget

theorem place_surgery (h : Heap) (q asize : Nat) (hctx : FreeCtx h q)
    (hasz : 0 < asize) : Surgery h.blocks (place h q asize).blocks := by
  obtain ⟨A, pr, s, Y, hdec, hq, hpos, hs, hpra, hheadY, hc1, hc2⟩ := hctx
  have hsplit : h.blocks = (A ++ [pr]) ++ ⟨s, false⟩ :: Y := by rw [hdec]; simp
  have hlen1 : (A ++ [pr]).length = A.length + 1 := by simp
  have hidx : idxOf h.blocks q = some (A.length + 1) := by
    rw [hsplit, hq, idxOf_resolve _ _ _ hpos, hlen1]
  have hba : blockAt h.blocks q = some ⟨s, false⟩ := by
    rw [hsplit, hq]
    exact blockAt_resolve _ _ _ hpos
  have hsz : sizeAt h q = s := by simp [sizeAt, hba]
  have htake : h.blocks.take (A.length + 1) = A ++ [pr] := by
    rw [hsplit]
    exact List.take_left' hlen1
  have hdrop : h.blocks.drop (A.length + 1 + 1) = Y := by
    rw [show h.blocks = (A ++ [pr, ⟨s, false⟩]) ++ Y by rw [hdec]; simp]
    exact List.drop_left' (by simp)
  have hilt : A.length + 1 < h.blocks.length := by
    rw [hdec]
    simp
  have hset : h.blocks.set (A.length + 1) ⟨s, true⟩ = A ++ pr :: ⟨s, true⟩ :: Y := by
    rw [List.set_eq_take_cons_drop _ hilt, htake, hdrop]
    simp
  have hWT : WSIZE + TSIZE = 32 := rfl
  unfold place
  rw [hidx]
  simp only [hsz]
  by_cases hcond : WSIZE + TSIZE ≤ s - asize
  · rw [if_pos hcond]
    simp only [htake, hdrop]
    refine ⟨A ++ [pr], [⟨s, false⟩], [⟨asize, true⟩, ⟨s - asize, false⟩], Y,
      by rw [hsplit]; simp, ?_, ?_, hpos, ?_, ?_, by simp, by simp⟩
    · simp
    · simp [sizesSum]
      omega
    · intro x hx
      simp only [List.mem_cons, List.not_mem_nil, or_false] at hx
      rcases hx with hx | hx <;> rw [hx]
      · exact hasz
      · show 0 < s - asize
        omega
    · intro x hx
      simp only [List.mem_cons, List.not_mem_nil, or_false] at hx
      rw [hx]
  · rw [if_neg hcond]
    refine ⟨A ++ [pr], [⟨s, false⟩], [⟨s, true⟩], Y,
      by rw [hsplit]; simp, ?_, ?_, hpos, ?_, ?_, by simp, by simp⟩
    · show h.blocks.set (A.length + 1) ⟨s, true⟩ = (A ++ [pr]) ++ [⟨s, true⟩] ++ Y
      rw [hset]
      simp
    · simp [sizesSum]
    · intro x hx
      simp only [List.mem_cons, List.not_mem_nil, or_false] at hx
      rw [hx]
      exact hs
    · intro x hx
      simp only [List.mem_cons, List.not_mem_nil, or_false] at hx
      rw [hx]

theorem coalesce_surgery (h : Heap) (q : Nat) (hp : PreCtx h q) :
    Surgery h.blocks (coalesce h q).1.blocks := by
  obtain ⟨A, pr, s, nx, Y, hdec, hq, hpos, hs, hc1, hc2, hprA, hnxY⟩ := hp
  obtain ⟨hblocks, -⟩ := coalesce_compute h A pr s nx Y q hdec hq hpos hs
  have hposA : ∀ x ∈ A, 0 < x.size := fun x hx => hpos x (by simp [hx])
  have hprpos : 0 < pr.size := hpos pr (by simp)
  cases hpra : pr.alloc <;> cases hnxa : nx.alloc <;>
    (rw [hpra] at hblocks; rw [hnxa] at hblocks; simp at hblocks)
  · -- case 4: both free
    refine ⟨A, [pr, ⟨s, false⟩, nx], [⟨s + pr.size + nx.size, false⟩], Y,
      by rw [hdec]; simp, by rw [hblocks]; simp, ?_, hposA, ?_, ?_, by simp, by simp⟩
    · simp [sizesSum]
      omega
    · intro x hx
      simp only [List.mem_cons, List.not_mem_nil, or_false] at hx
      rw [hx]
      show 0 < s + pr.size + nx.size
      omega
    · intro x hx
      simp only [List.mem_cons, List.not_mem_nil, or_false] at hx
      rcases hx with hx | hx | hx <;> rw [hx] <;>
        first | rfl | exact hpra | exact hnxa
  · -- case 3: previous free, next allocated
    refine ⟨A, [pr, ⟨s, false⟩], [⟨s + pr.size, false⟩], nx :: Y,
      by rw [hdec]; simp, by rw [hblocks]; simp, ?_, hposA, ?_, ?_, by simp, by simp⟩
    · simp [sizesSum]
      omega
    · intro x hx
      simp only [List.mem_cons, List.not_mem_nil, or_false] at hx
      rw [hx]
      show 0 < s + pr.size
      omega
    · intro x hx
      simp only [List.mem_cons, List.not_mem_nil, or_false] at hx
      rcases hx with hx | hx <;> rw [hx] <;>
        first | rfl | exact hpra
  · -- case 2: previous allocated, next free
    refine ⟨A ++ [pr], [⟨s, false⟩, nx], [⟨s + nx.size, false⟩], Y,
      by rw [hdec]; simp, by rw [hblocks]; simp, ?_, hpos, ?_, ?_, by simp, by simp⟩
    · simp only [sizesSum_cons, sizesSum_nil]
      omega
    · intro x hx
      simp only [List.mem_cons, List.not_mem_nil, or_false] at hx
      rw [hx]
      show 0 < s + nx.size
      omega
    · intro x hx
      simp only [List.mem_cons, List.not_mem_nil, or_false] at hx
      rcases hx with hx | hx <;> rw [hx] <;>
        first | rfl | exact hnxa
  · -- case 1: both allocated
    refine ⟨A ++ [pr], [⟨s, false⟩], [⟨s, false⟩], nx :: Y,
      by rw [hdec]; simp, by rw [hblocks, hdec]; simp, rfl, hpos, ?_, ?_, by simp, by simp⟩
    · intro x hx
      simp only [List.mem_cons, List.not_mem_nil, or_false] at hx
      rw [hx]
      exact hs
    · intro x hx
      simp only [List.mem_cons, List.not_mem_nil, or_false] at hx
      rw [hx]

theorem malloc_asize_lb (s : Nat) : ASIZE + TSIZE ≤ malloc_asize s := by
  simp only [malloc_asize, ASIZE, TSIZE, DSIZE, WSIZE, BOUND, CHUNKSIZE]
  split_ifs <;> omega

/-- A granted heap extension yields a free-block context at the returned
address, preserves structural chain well-formedness, and keeps every live
allocated block live at its address. -/
theorem extend_preserves (h : Heap) (words : Nat)
    (hwf : chainWFB h.blocks = true) (hna : noAdjFree h.blocks) (hw : 0 < words) :
    ∃ q, (extend_heap h words true).2 = some q ∧
      FreeCtx (extend_heap h words true).1 q ∧
      chainWFB (extend_heap h words true).1.blocks = true ∧
      ∀ p, liveAt h.blocks p → liveAt (extend_heap h words true).1.blocks p := by
  obtain ⟨hlen, ⟨pb, hpb, hpba, hpbs⟩, -, hposD⟩ := chainWFB_parts h.blocks hwf
  set sz := if words % 2 = 1 then (words + 1) * WSIZE else words * WSIZE with hsz
  have hszpos : 0 < sz := by
    rw [hsz]
    split_ifs <;> simp [WSIZE] <;> omega
  set n := h.blocks.length with hn
  set bp := addrOf h.blocks (n - 1) with hbp
  set h1 : Heap := ⟨h.blocks.take (n - 1) ++ [⟨sz, false⟩, ⟨0, true⟩],
    insert_block h.bins bp sz⟩ with hh1
  have hext : extend_heap h words true = ((coalesce h1 bp).1, some (coalesce h1 bp).2) := by
    unfold extend_heap
    simp only [if_true, ← hsz, ← hn, ← hbp, ← hh1]
  obtain ⟨A₀, pl, hA⟩ : ∃ A₀ pl, h.blocks.take (n - 1) = A₀ ++ [pl] := by
    rcases List.eq_nil_or_concat (h.blocks.take (n - 1)) with hnil | ⟨A₀, pl, hcc⟩
    · exfalso
      have : (h.blocks.take (n - 1)).length = n - 1 := by
        rw [List.length_take]
        omega
      rw [hnil] at this
      simp at this
      omega
    · exact ⟨A₀, pl, by simpa [List.concat_eq_append] using hcc⟩
  have hpre : PreCtx h1 bp := by
    refine ⟨A₀, pl, sz, ⟨0, true⟩, [], ?_, ?_, ?_, hszpos, ?_, ?_, ?_, ?_⟩
    · show h.blocks.take (n - 1) ++ [⟨sz, false⟩, ⟨0, true⟩] =
        A₀ ++ pl :: ⟨sz, false⟩ :: ⟨0, true⟩ :: []
      rw [hA]
      simp
    · rw [hbp, addrOf, hA]
    · rw [← hA]
      exact wf_take_pos h hwf (n - 1) (by omega)
    · rw [← hA]
      exact List.Chain'.take hna (n - 1)
    · exact List.chain'_singleton _
    · intro hpf hAnil
      have hhead : h.blocks.head? = some pl := by
        have hd : h.blocks = (A₀ ++ [pl]) ++ h.blocks.drop (n - 1) := by
          rw [← hA, List.take_append_drop]
        rw [hd, hAnil]
        simp
      rw [hpb] at hhead
      injection hhead with hhead
      rw [hhead, hpf] at hpba
      exact absurd hpba (by simp)
    · intro hcontra
      simp at hcontra
  have hS : Surgery h1.blocks (coalesce h1 bp).1.blocks := coalesce_surgery h1 bp hpre
  have hDL : h.blocks.take (n - 1) = h.blocks.dropLast := by
    rw [List.dropLast_eq_take, hn]
  have hwf1 : chainWFB h1.blocks = true := by
    show chainWFB (h.blocks.take (n - 1) ++ [⟨sz, false⟩, ⟨0, true⟩]) = true
    unfold chainWFB
    simp only [Bool.and_eq_true, decide_eq_true_eq]
    refine ⟨⟨⟨?_, ?_⟩, ?_⟩, ?_⟩
    · simp
    · rw [hA, List.head?_append_of_ne_nil _ (by simp)]
      have hhead : h.blocks.head? = (A₀ ++ [pl]).head? := by
        have hd : h.blocks = (A₀ ++ [pl]) ++ h.blocks.drop (n - 1) := by
          rw [← hA, List.take_append_drop]
        rw [hd, List.head?_append_of_ne_nil _ (by simp)]
      rw [← hhead, hpb]
      simp [hpba, hpbs]
    · rw [List.getLast?_append_of_ne_nil _ (show ([⟨sz, false⟩, ⟨0, true⟩] : List Blk) ≠ [] by simp)]
      simp
    · rw [List.dropLast_append_of_ne_nil _ (show ([⟨sz, false⟩, ⟨0, true⟩] : List Blk) ≠ [] by simp),
        List.all_eq_true]
      intro x hx
      simp only [List.mem_append] at hx
      rcases hx with hx | hx
      · exact decide_eq_true (wf_take_pos h hwf (n - 1) (by omega) x hx)
      · simp only [List.dropLast, List.mem_singleton] at hx
        rw [hx]
        exact decide_eq_true hszpos
  refine ⟨(coalesce h1 bp).2, by rw [hext], by rw [hext]; exact coalesce_ctx h1 bp hpre, ?_, ?_⟩
  · rw [hext]
    exact Surgery.wf h1.blocks _ hS hwf1
  · intro p hp
    rw [hext]
    apply Surgery.live h1.blocks _ p hS
    show liveAt (h.blocks.take (n - 1) ++ [⟨sz, false⟩, ⟨0, true⟩]) p
    rw [hDL]
    exact liveAt_prefix_ext h.blocks _ p (by simp) hp

/-- Allocation preserves structural chain well-formedness and the liveness
of every previously allocated block at its address. -/
theorem mm_malloc_preserves (h : Heap) (s : Nat) (g : Bool)
    (hwf : wfB h = true) (hna : noAdjFree h.blocks) :
    chainWFB (mm_malloc h s g).1.blocks = true ∧
    ∀ p, liveAt h.blocks p → liveAt (mm_malloc h s g).1.blocks p := by
  have hcwf := wfB_chainWFB h hwf
  have haszpos : 0 < malloc_asize s := by
    have := malloc_asize_lb s
    simp only [ASIZE, TSIZE] at this
    omega
  by_cases hs : s = 0
  · constructor
    · simpa [mm_malloc, hs] using hcwf
    · intro p hp
      simpa [mm_malloc, hs] using hp
  · rcases hff : find_fit h (malloc_asize s) with _ | bp
    · rcases hg : g with _ | _
      · have hnone : mm_malloc h s false = (h, none) := by
          simp [mm_malloc, hs, hff, extend_heap]
        rw [hnone]
        exact ⟨hcwf, fun p hp => hp⟩
      · set asize := malloc_asize s with hasize
        set e0 := max asize CHUNKSIZE with he0
        set e1 := if e0 % WSIZE ≠ 0 then (e0 / WSIZE + 1) * WSIZE else e0 with he1
        have hwpos : 0 < e1 / WSIZE := by
          have h1 : CHUNKSIZE ≤ e0 := le_max_right _ _
          have h2 : e0 ≤ e1 := by
            rw [he1]
            split_ifs with hh
            · simp only [WSIZE] at *
              omega
            · exact le_refl _
          simp only [WSIZE, CHUNKSIZE] at *
          omega
        rcases hE : extend_heap h (e1 / WSIZE) true with ⟨h1, r⟩
        obtain ⟨q, hq2, hctx, hwf1, hlive1⟩ := extend_preserves h (e1 / WSIZE) hcwf hna hwpos
        rw [hE] at hq2 hctx hwf1 hlive1
        simp only at hq2 hctx hwf1 hlive1
        subst hq2
        have hred : mm_malloc h s true = (place h1 q asize, some q) := by
          simp only [mm_malloc, hs, ite_false, hff, ← hasize, ← he0, ← he1, hE]
        rw [hred]
        have hS : Surgery h1.blocks (place h1 q asize).blocks :=
          place_surgery h1 q asize hctx haszpos
        exact ⟨Surgery.wf _ _ hS hwf1,
          fun p hp => Surgery.live _ _ p hS (hlive1 p hp)⟩
    · obtain ⟨l, hl, hbpin⟩ := find_fit_mem h _ bp hff
      obtain ⟨-, -, -, -, hbv, -⟩ := wfB_parts h hwf
      have hblk : ∃ b, blockAt h.blocks bp = some b ∧ b.alloc = false := by
        unfold binsValidB at hbv
        rw [List.all_eq_true] at hbv
        have h1 := hbv l hl
        rw [List.all_eq_true] at h1
        have h2 := h1 bp hbpin
        rcases hb : blockAt h.blocks bp with _ | b
        · rw [hb] at h2
          simp at h2
        · rw [hb] at h2
          simp at h2
          exact ⟨b, rfl, by simpa using h2⟩
      obtain ⟨b, hb, hfree⟩ := hblk
      have hctx := free_block_ctx h bp b hcwf hna hb hfree
      have hred : mm_malloc h s g = (place h bp (malloc_asize s), some bp) := by
        simp [mm_malloc, hs, hff]
      rw [hred]
      have hS : Surgery h.blocks (place h bp (malloc_asize s)).blocks :=
        place_surgery h bp _ hctx haszpos
      exact ⟨Surgery.wf _ _ hS hcwf,
        fun p hp => Surgery.live _ _ p hS hp⟩

/-- The allocate-copy-free fallback of `mm_realloc` preserves the
no-adjacent-free invariant: the internal allocation preserves it together
with the old block's liveness, and freeing the old block then coalesces. -/
theorem realloc_fallback_chain (h : Heap) (p s : Nat) (g : Bool)
    (hwf : wfB h = true) (hna : noAdjFree h.blocks) (hlive : liveAt h.blocks p) :
    noAdjFree (realloc_fallback h p s g).1.blocks := by
  unfold realloc_fallback
  rcases hmm : mm_malloc h s g with ⟨h1, r⟩
  have hchain := mm_malloc_chain h s g hwf hna
  obtain ⟨hwf1, hlive1⟩ := mm_malloc_preserves h s g hwf hna
  rw [hmm] at hchain hwf1 hlive1
  rcases r with _ | np
  · exact hchain
  · exact mm_free_chain h1 p hwf1 hchain (hlive1 p hlive)

theorem mm_realloc_chain (h : Heap) (ptr : Option Nat) (size : Nat) (g : Bool)
    (hwf : wfB h = true) (hna : noAdjFree h.blocks)
    (hv : opValid h (.realloc ptr size g) = true) :
    noAdjFree (mm_realloc h ptr size g).1.blocks := by
  have hcwf := wfB_chainWFB h hwf
  by_cases hs0 : size = 0
  · subst hs0
    rcases ptr with _ | p
    · simpa [mm_realloc, mm_free] using hna
    · have hlive := isLiveAllocB_liveAt h p (by simpa [opValid] using hv)
      simpa [mm_realloc] using mm_free_chain h p hcwf hna hlive
  · rcases ptr with _ | p
    · have hred : mm_realloc h none size g = mm_malloc h size g := by
        simp [mm_realloc, hs0]
      rw [hred]
      exact mm_malloc_chain h size g hwf hna
    · have hliveB : isLiveAllocB h p = true := by simpa [opValid] using hv
      obtain ⟨i, hidx, h0, hlast, b, hget, hballoc⟩ := isLiveAllocB_liveAt h p hliveB
      have hlive0 : liveAt h.blocks p := ⟨i, hidx, h0, hlast, b, hget, hballoc⟩
      obtain ⟨A, pr, b', nx, Y, hdec, hget', haddr, hpos, hbpos, hAi⟩ :=
        interior_decomp h p i hcwf hidx h0 hlast
      rw [hget] at hget'
      injection hget' with hbb
      subst hbb
      have hba : blockAt h.blocks p = some b := by
        unfold blockAt
        rw [hidx, Option.some_bind]
        exact hget
      have hsz : sizeAt h p = b.size := by simp [sizeAt, hba]
      have hilt : i < h.blocks.length := by omega
      have htakei : h.blocks.take i = A ++ [pr] := by
        rw [hdec, ← hAi,
          show A ++ pr :: b :: nx :: Y = (A ++ [pr]) ++ b :: nx :: Y by simp]
        exact List.take_left' (by simp)
      have hdropi1 : h.blocks.drop (i + 1) = nx :: Y := by
        rw [hdec, ← hAi,
          show A ++ pr :: b :: nx :: Y = (A ++ [pr, b]) ++ nx :: Y by simp]
        exact List.drop_left' (by simp)
      have hdropi2 : h.blocks.drop (i + 2) = Y := by
        rw [hdec, ← hAi,
          show A ++ pr :: b :: nx :: Y = (A ++ [pr, b, nx]) ++ Y by simp]
        exact List.drop_left' (by simp)
      have hgetnext : h.blocks.get? (i + 1) = some nx := by
        rw [hdec, ← hAi,
          show A ++ pr :: b :: nx :: Y = (A ++ [pr, b]) ++ nx :: Y from by simp,
          List.get?_append_right
            (by simp only [List.length_append, List.length_cons, List.length_nil]; omega),
          show A.length + 1 + 1 - (A ++ [pr, b]).length = 0 from by
            simp only [List.length_append, List.length_cons, List.length_nil]; omega]
        rfl
      have hchA : List.Chain' adjOK (A ++ [pr]) ∧ adjOK pr b ∧
          List.Chain' adjOK (b :: nx :: Y) := by
        have hx := hna
        rw [noAdjFree, hdec, List.chain'_append_cons_cons] at hx
        exact hx
      have hnxY : nx.alloc = false → Y ≠ [] := by
        intro hnf hYnil
        obtain ⟨-, -, ⟨eb, heb, heba, -⟩, -⟩ := chainWFB_parts h.blocks hcwf
        rw [hdec, hYnil,
          show A ++ pr :: b :: nx :: [] = (A ++ [pr, b]) ++ [nx] by simp,
          List.getLast?_concat] at heb
        simp only [Option.some.injEq] at heb
        rw [← heb, hnf] at heba
        exact absurd heba (by simp)
      have hDS : DSIZE = 16 := rfl
      unfold mm_realloc
      simp only [hs0, ite_false, hidx, hsz, hgetnext, Option.map_some', Option.getD_some]
      generalize hN : (if size % WSIZE ≠ 0 then (size / WSIZE + 1) * WSIZE else size) = N
      split_ifs with hc1 hc2 hc3 hc4 hc5
      · exact hna
      · refine FreeCtx_chain _ _ (coalesce_ctx _ _ ?_)
        refine ⟨A ++ [pr], ⟨N + DSIZE, true⟩, b.size - (N + DSIZE), nx, Y,
          ?_, ?_, ?_, ?_, ?_, hchA.2.2.tail, ?_, hnxY⟩
        · show List.take i h.blocks ++ ⟨N + DSIZE, true⟩ ::
              ⟨b.size - (N + DSIZE), false⟩ :: List.drop (i + 1) h.blocks =
            (A ++ [pr]) ++ ⟨N + DSIZE, true⟩ ::
              ⟨b.size - (N + DSIZE), false⟩ :: nx :: Y
          rw [htakei, hdropi1]
        · show p + (N + DSIZE) = heapStart + sizesSum ((A ++ [pr]) ++ [⟨N + DSIZE, true⟩])
          rw [haddr]
          simp only [sizesSum_append, sizesSum_cons, sizesSum_nil]
          omega
        · intro x hx
          rcases List.mem_append.mp hx with hx | hx
          · exact hpos x hx
          · simp only [List.mem_singleton] at hx
            rw [hx]
            show 0 < N + DSIZE
            omega
        · show 0 < b.size - (N + DSIZE)
          omega
        · have hg := chain'_glue A pr [⟨N + DSIZE, true⟩] hchA.1 (List.chain'_singleton _)
            (Or.inr (by
              intro y hy
              simp only [List.head?_cons, Option.mem_def, Option.some.injEq] at hy
              subst hy
              rfl))
          simpa using hg
        · intro hf
          simp at hf
      · exact hna
      · obtain ⟨hnxf, hle⟩ := hc4
        obtain ⟨y, Y', hY⟩ : ∃ y Y', Y = y :: Y' := by
          rcases Y with _ | ⟨y, Y'⟩
          · exact absurd rfl (hnxY hnxf)
          · exact ⟨y, Y', rfl⟩
        have hya : y.alloc = true := by
          have hcnY : List.Chain' adjOK (nx :: Y) := hchA.2.2.tail
          rw [hY, List.chain'_cons] at hcnY
          rcases hcnY.1 with hh | hh
          · rw [hnxf] at hh
            exact absurd hh (by simp)
          · exact hh
        have hcY' : List.Chain' adjOK (y :: Y') := by
          have hcY : List.Chain' adjOK Y := (hchA.2.2.tail).tail
          rwa [hY] at hcY
        refine FreeCtx_chain _ _ (coalesce_ctx _ _ ?_)
        refine ⟨A ++ [pr], ⟨N + DSIZE, true⟩, nx.size - (N + DSIZE - b.size), y, Y',
          ?_, ?_, ?_, ?_, ?_, hcY', ?_, ?_⟩
        · show List.take i h.blocks ++ ⟨N + DSIZE, true⟩ ::
              ⟨nx.size - (N + DSIZE - b.size), false⟩ :: List.drop (i + 2) h.blocks =
            (A ++ [pr]) ++ ⟨N + DSIZE, true⟩ ::
              ⟨nx.size - (N + DSIZE - b.size), false⟩ :: y :: Y'
          rw [htakei, hdropi2, hY]
        · show p + (N + DSIZE) = heapStart + sizesSum ((A ++ [pr]) ++ [⟨N + DSIZE, true⟩])
          rw [haddr]
          simp only [sizesSum_append, sizesSum_cons, sizesSum_nil]
          omega
        · intro x hx
          rcases List.mem_append.mp hx with hx | hx
          · exact hpos x hx
          · simp only [List.mem_singleton] at hx
            rw [hx]
            show 0 < N + DSIZE
            omega
        · show 0 < nx.size - (N + DSIZE - b.size)
          omega
        · have hg := chain'_glue A pr [⟨N + DSIZE, true⟩] hchA.1 (List.chain'_singleton _)
            (Or.inr (by
              intro z hz
              simp only [List.head?_cons, Option.mem_def, Option.some.injEq] at hz
              subst hz
              rfl))
          simpa using hg
        · intro hf
          simp at hf
        · intro hf
          rw [hf] at hya
          simp at hya
      · obtain ⟨hnxf, -⟩ := hc5
        show noAdjFree (List.take i h.blocks ++
          ⟨b.size + nx.size, true⟩ :: List.drop (i + 2) h.blocks)
        rw [htakei, hdropi2]
        have hcY : List.Chain' adjOK Y := (hchA.2.2.tail).tail
        have hg := chain'_glue A pr (⟨b.size + nx.size, true⟩ :: Y) hchA.1
          (chain'_cons_of_alloc _ Y rfl hcY)
          (Or.inr (by
            intro z hz
            simp only [List.head?_cons, Option.mem_def, Option.some.injEq] at hz
            subst hz
            rfl))
        show List.Chain' adjOK ((A ++ [pr]) ++ ⟨b.size + nx.size, true⟩ :: Y)
        simpa using hg
      · exact realloc_fallback_chain h p size g hwf hna hlive0

/-- Concrete heap with two allocated interior blocks, used to exercise one
deallocation. -/
def hC1 : Heap := ⟨[⟨DSIZE, true⟩, ⟨24, true⟩, ⟨40, true⟩, ⟨0, true⟩], bins0⟩

/-- C1: after every allocator operation (allocate, free, reallocate, heap
extension) on a well-formed state with valid arguments, no two adjacent
blocks of the chain are both free — every free block's immediate
predecessor and successor are allocated.  Freeing and both in-place
reallocation paths re-establish the invariant through `coalesce`
(mm.c:387-457, mm.c:221-246), placement keeps the neighbours of the chosen
free block allocated, and a granted extension coalesces the fresh block
before returning. -/
theorem c1_no_adjacent_free (h : Heap) (op : Op)
    (hwf : wfB h = true) (hna : noAdjFree h.blocks)
    (hv : opValid h op = true) :
    noAdjFree (op.apply h).blocks := by
  have hcwf := wfB_chainWFB h hwf
  cases op with
  | malloc s g => exact mm_malloc_chain h s g hwf hna
  | free p =>
    rcases p with _ | p
    · simpa [Op.apply, mm_free] using hna
    · exact mm_free_chain h p hcwf hna
        (isLiveAllocB_liveAt h p (by simpa [opValid] using hv))
  | realloc p s g => exact mm_realloc_chain h p s g hwf hna hv
  | extend w g =>
    rcases g with _ | _
    · show noAdjFree (extend_heap h w false).1.blocks
      simpa [extend_heap] using hna
    · have hw : 0 < w := by simpa [opValid] using hv
      obtain ⟨q, -, hctx, -, -⟩ := extend_preserves h w hcwf hna hw
      exact FreeCtx_chain _ _ hctx

/-- The preconditions of `c1_no_adjacent_free` hold on a concrete state and
the invariant is re-established after freeing the block at address 32. -/
theorem c1_no_adjacent_free_witness :
    (wfB hC1 = true ∧ noAdjFree hC1.blocks ∧
      opValid hC1 (Op.free (some 32)) = true) ∧
    noAdjFree ((Op.free (some 32)).apply hC1).blocks :=
  ⟨⟨by decide, by simp [hC1, noAdjFree, adjOK], by decide⟩,
    c1_no_adjacent_free hC1 (Op.free (some 32)) (by decide)
      (by simp [hC1, noAdjFree, adjOK]) (by decide)⟩

/-- Block-size legality over a whole chain: every block's size is 0 (the
epilogue value), `DSIZE` (the prologue value, also reachable as a minimal
heap-extension seed) or at least `TSIZE`. -/
def sizesLegal (bs : List Blk) : Prop := ∀ b ∈ bs, sizeLegal b

instance (bs : List Blk) : Decidable (sizesLegal bs) :=
  inferInstanceAs (Decidable (∀ b ∈ bs, sizeLegal b))

/-- The minimum-block-size invariant exactly as the specification words it:
every block other than the prologue (first) and epilogue (last) sentinel
has size at least 4W. -/
def minSize4WSpec (bs : List Blk) : Prop :=
  ∀ b ∈ bs.dropLast.tail, 4 * WSIZE ≤ b.size

instance (bs : List Blk) : Decidable (minSize4WSpec bs) :=
  inferInstanceAs (Decidable (∀ b ∈ bs.dropLast.tail, 4 * WSIZE ≤ b.size))

/-- Concrete heap on which an in-place reallocation shrink stamps a 3W
block: realloc of the 120-byte block at 32 down to payload 8. -/
def hShrink : Heap :=
  ⟨[⟨DSIZE, true⟩, ⟨120, true⟩, ⟨3992, false⟩, ⟨0, true⟩], bins0.set 5 [152]⟩

theorem sizeLegal_sum (x y : Nat)
    (hx : x = 0 ∨ x = DSIZE ∨ TSIZE ≤ x) (hy : y = 0 ∨ y = DSIZE ∨ TSIZE ≤ y) :
    x + y = 0 ∨ x + y = DSIZE ∨ TSIZE ≤ x + y := by
  have h1 : DSIZE = 16 := rfl
  have h2 : TSIZE = 24 := rfl
  omega

theorem sizesLegal_sizeAt (h : Heap) (p : Nat) (hleg : sizesLegal h.blocks) :
    sizeAt h p = 0 ∨ sizeAt h p = DSIZE ∨ TSIZE ≤ sizeAt h p := by
  have hgoal : sizeAt h p = ((blockAt h.blocks p).map Blk.size).getD 0 := rfl
  rcases hba : blockAt h.blocks p with _ | b
  · rw [hgoal, hba]
    simp
  · have hmem : b ∈ h.blocks := by
      obtain ⟨i, hidx, hilt, haddr, hget⟩ := blockAt_some h.blocks p b hba
      exact List.get?_mem hget
    have hl := hleg b hmem
    rw [hgoal, hba]
    simpa using hl

theorem sizesLegal_getD (h : Heap) (j : Nat) (hleg : sizesLegal h.blocks) :
    ((h.blocks.get? j).map Blk.size).getD 0 = 0 ∨
    ((h.blocks.get? j).map Blk.size).getD 0 = DSIZE ∨
    TSIZE ≤ ((h.blocks.get? j).map Blk.size).getD 0 := by
  rcases hget : h.blocks.get? j with _ | b
  · simp
  · have hl := hleg b (List.get?_mem hget)
    simpa using hl

theorem coalesce_sizes (h : Heap) (q : Nat) (hleg : sizesLegal h.blocks) :
    sizesLegal (coalesce h q).1.blocks := by
  unfold coalesce
  rcases hidx : idxOf h.blocks q with _ | i <;> simp only [hidx]
  · exact hleg
  · have hS := sizesLegal_sizeAt h q hleg
    have hNx := sizesLegal_getD h (i + 1) hleg
    have hPr := sizesLegal_getD h (i - 1) hleg
    split_ifs with h1 h2 h3
    · exact hleg
    · intro b hb
      simp only [List.mem_append, List.mem_cons] at hb
      rcases hb with hb | hb | hb
      · exact hleg b (List.take_subset _ _ hb)
      · rw [hb]
        exact sizeLegal_sum _ _ hS hNx
      · exact hleg b (List.drop_subset _ _ hb)
    · intro b hb
      simp only [List.mem_append, List.mem_cons] at hb
      rcases hb with hb | hb | hb
      · exact hleg b (List.take_subset _ _ hb)
      · rw [hb]
        exact sizeLegal_sum _ _ hS hPr
      · exact hleg b (List.drop_subset _ _ hb)
    · intro b hb
      simp only [List.mem_append, List.mem_cons] at hb
      rcases hb with hb | hb | hb
      · exact hleg b (List.take_subset _ _ hb)
      · rw [hb]
        exact sizeLegal_sum _ _ (sizeLegal_sum _ _ hS hPr) hNx
      · exact hleg b (List.drop_subset _ _ hb)

theorem place_sizes (h : Heap) (bp asize : Nat) (hasz : TSIZE ≤ asize)
    (hleg : sizesLegal h.blocks) : sizesLegal (place h bp asize).blocks := by
  unfold place
  rcases hidx : idxOf h.blocks bp with _ | i <;> simp only [hidx]
  · exact hleg
  · have hS := sizesLegal_sizeAt h bp hleg
    split_ifs with hc
    · intro b hb
      simp only [List.mem_append, List.mem_cons] at hb
      rcases hb with hb | hb | hb | hb
      · exact hleg b (List.take_subset _ _ hb)
      · rw [hb]
        exact Or.inr (Or.inr hasz)
      · rw [hb]
        refine Or.inr (Or.inr ?_)
        show TSIZE ≤ sizeAt h bp - asize
        have hW : WSIZE = 8 := rfl
        have hT : TSIZE = 24 := rfl
        omega
      · exact hleg b (List.drop_subset _ _ hb)
    · intro b hb
      rcases List.mem_or_eq_of_mem_set hb with hb | hb
      · exact hleg b hb
      · rw [hb]
        exact hS

theorem extend_sizes (h : Heap) (words : Nat) (g : Bool)
    (hleg : sizesLegal h.blocks) : sizesLegal (extend_heap h words g).1.blocks := by
  rcases g with _ | _
  · have hred : extend_heap h words false = (h, none) := by simp [extend_heap]
    rw [hred]
    exact hleg
  · set sz := if words % 2 = 1 then (words + 1) * WSIZE else words * WSIZE with hsz
    set n := h.blocks.length with hn
    set bp := addrOf h.blocks (n - 1) with hbp
    set h1 : Heap := ⟨h.blocks.take (n - 1) ++ [⟨sz, false⟩, ⟨0, true⟩],
      insert_block h.bins bp sz⟩ with hh1
    have hext : extend_heap h words true =
        ((coalesce h1 bp).1, some (coalesce h1 bp).2) := by
      unfold extend_heap
      simp only [if_true, ← hsz, ← hn, ← hbp, ← hh1]
    rw [hext]
    apply coalesce_sizes
    intro b hb
    rw [hh1] at hb
    simp only [List.mem_append, List.mem_cons, List.not_mem_nil, or_false] at hb
    rcases hb with hb | hb | hb
    · exact hleg b (List.take_subset _ _ hb)
    · rw [hb]
      show sz = 0 ∨ sz = DSIZE ∨ TSIZE ≤ sz
      rw [hsz]
      simp only [WSIZE, DSIZE, TSIZE]
      split_ifs with hm <;> omega
    · rw [hb]
      exact Or.inl rfl

theorem mm_free_sizes (h : Heap) (bp : Option Nat) (hleg : sizesLegal h.blocks) :
    sizesLegal (mm_free h bp).blocks := by
  rcases bp with _ | p
  · exact hleg
  · show sizesLegal (mm_free h (some p)).blocks
    unfold mm_free
    rcases hidx : idxOf h.blocks p with _ | i <;> simp only [hidx]
    · exact hleg
    · apply coalesce_sizes
      intro b hb
      rcases List.mem_or_eq_of_mem_set hb with hb | hb
      · exact hleg b hb
      · rw [hb]
        exact sizesLegal_sizeAt h p hleg

theorem mm_malloc_sizes (h : Heap) (s : Nat) (g : Bool)
    (hleg : sizesLegal h.blocks) : sizesLegal (mm_malloc h s g).1.blocks := by
  have hT : TSIZE ≤ malloc_asize s := by
    have hlb := malloc_asize_lb s
    have h1 : ASIZE = 8 := rfl
    have h2 : TSIZE = 24 := rfl
    omega
  by_cases hs : s = 0
  · have hred : mm_malloc h s g = (h, none) := by simp [mm_malloc, hs]
    rw [hred]
    exact hleg
  · set asize := malloc_asize s with hasize
    rcases hff : find_fit h asize with _ | bp
    · set e0 := max asize CHUNKSIZE with he0
      set e1 := if e0 % WSIZE ≠ 0 then (e0 / WSIZE + 1) * WSIZE else e0 with he1
      rcases hE : extend_heap h (e1 / WSIZE) g with ⟨h1, r⟩
      have h1leg : sizesLegal h1.blocks := by
        have hx := extend_sizes h (e1 / WSIZE) g hleg
        rw [hE] at hx
        exact hx
      rcases r with _ | bp
      · have hred : mm_malloc h s g = (h1, none) := by
          simp only [mm_malloc, hs, ite_false, hff, ← hasize, ← he0, ← he1, hE]
        rw [hred]
        exact h1leg
      · have hred : mm_malloc h s g = (place h1 bp asize, some bp) := by
          simp only [mm_malloc, hs, ite_false, hff, ← hasize, ← he0, ← he1, hE]
        rw [hred]
        exact place_sizes h1 bp asize hT h1leg
    · have hred : mm_malloc h s g = (place h bp asize, some bp) := by
        simp only [mm_malloc, hs, ite_false, hff, ← hasize]
      rw [hred]
      exact place_sizes h bp asize hT hleg

theorem realloc_fallback_sizes (h : Heap) (p s : Nat) (g : Bool)
    (hleg : sizesLegal h.blocks) : sizesLegal (realloc_fallback h p s g).1.blocks := by
  unfold realloc_fallback
  rcases hmm : mm_malloc h s g with ⟨h1, r⟩
  have h1leg : sizesLegal h1.blocks := by
    have hx := mm_malloc_sizes h s g hleg
    rw [hmm] at hx
    exact hx
  rcases r with _ | np
  · exact h1leg
  · exact mm_free_sizes h1 (some p) h1leg

theorem mm_realloc_sizes (h : Heap) (ptr : Option Nat) (size : Nat) (g : Bool)
    (hleg : sizesLegal h.blocks) : sizesLegal (mm_realloc h ptr size g).1.blocks := by
  by_cases hs0 : size = 0
  · have hred : mm_realloc h ptr size g = (mm_free h ptr, none) := by
      simp [mm_realloc, hs0]
    rw [hred]
    exact mm_free_sizes h ptr hleg
  · rcases ptr with _ | p
    · have hred : mm_realloc h none size g = mm_malloc h size g := by
        simp [mm_realloc, hs0]
      rw [hred]
      exact mm_malloc_sizes h size g hleg
    · have hS := sizesLegal_sizeAt h p hleg
      have hDS : DSIZE = 16 := rfl
      have hTS : TSIZE = 24 := rfl
      have hW : WSIZE = 8 := rfl
      have hN8 : 8 ≤ (if size % WSIZE ≠ 0 then (size / WSIZE + 1) * WSIZE else size) := by
        rw [hW]
        split_ifs with hm
        · omega
        · omega
      unfold mm_realloc
      simp only [hs0, ite_false]
      rcases hidx : idxOf h.blocks p with _ | i <;> simp only [hidx]
      · split_ifs <;>
          first
            | exact hleg
            | exact realloc_fallback_sizes h p size g hleg
      · have hNx := sizesLegal_getD h (i + 1) hleg
        generalize hN : (if size % WSIZE ≠ 0 then (size / WSIZE + 1) * WSIZE else size) = N
        rw [hN] at hN8
        split_ifs with hc1 hc2 hc3 hc4 hc5
        · exact hleg
        · apply coalesce_sizes
          intro b hb
          simp only [List.mem_append, List.mem_cons] at hb
          rcases hb with hb | hb | hb | hb
          · exact hleg b (List.take_subset _ _ hb)
          · rw [hb]
            refine Or.inr (Or.inr ?_)
            show TSIZE ≤ N + DSIZE
            omega
          · rw [hb]
            refine Or.inr (Or.inr ?_)
            show TSIZE ≤ sizeAt h p - (N + DSIZE)
            omega
          · exact hleg b (List.drop_subset _ _ hb)
        · exact hleg
        · apply coalesce_sizes
          intro b hb
          simp only [List.mem_append, List.mem_cons] at hb
          rcases hb with hb | hb | hb | hb
          · exact hleg b (List.take_subset _ _ hb)
          · rw [hb]
            refine Or.inr (Or.inr ?_)
            show TSIZE ≤ N + DSIZE
            omega
          · rw [hb]
            refine Or.inr (Or.inr ?_)
            show TSIZE ≤ ((h.blocks.get? (i + 1)).map Blk.size).getD 0 -
              (N + DSIZE - sizeAt h p)
            omega
          · exact hleg b (List.drop_subset _ _ hb)
        · intro b hb
          simp only [List.mem_append, List.mem_cons] at hb
          rcases hb with hb | hb | hb
          · exact hleg b (List.take_subset _ _ hb)
          · rw [hb]
            exact sizeLegal_sum _ _ hS hNx
          · exact hleg b (List.drop_subset _ _ hb)
        · exact realloc_fallback_sizes h p size g hleg

/-- C3 (refutation of the 4W floor as claimed): on a well-formed heap whose
every non-sentinel block has size at least 4W, the in-place shrink path of
`mm_realloc` (mm.c:276-312) stamps the shrunken block's header and footer
with `new_size + DSIZE`, which is 3W = 24 bytes for a small payload — the
resulting heap has a non-sentinel block of size 24 < 4W. -/
theorem c3_counterexample :
    wfB hShrink = true ∧
    minSize4WSpec hShrink.blocks ∧
    opValid hShrink (Op.realloc (some 32) 8 true) = true ∧
    ¬ minSize4WSpec ((Op.realloc (some 32) 8 true).apply hShrink).blocks := by
  decide

/-- C3 (corrected): the block sizes the allocator actually maintains are
bounded below by 3W, not 4W: every operation preserves the invariant that
each block's size is 0 (epilogue), `DSIZE` = 2W (prologue, also a possible
minimal heap-extension seed) or at least `TSIZE` = 3W.  The 3W floor is
attained: reallocate's in-place shrink stamps `round_up(s, W) + 2W`, which
is 3W for payloads up to one word (mm.c:283,297-298). -/
theorem c3_min_block_size (h : Heap) (op : Op)
    (hleg : sizesLegal h.blocks) : sizesLegal (op.apply h).blocks := by
  cases op with
  | malloc s g => exact mm_malloc_sizes h s g hleg
  | free p => exact mm_free_sizes h p hleg
  | realloc p s g => exact mm_realloc_sizes h p s g hleg
  | extend w g => exact extend_sizes h w g hleg

/-- The precondition of `c3_min_block_size` holds on a concrete state and
size legality survives the reallocation that stamps a 3W block. -/
theorem c3_min_block_size_witness :
    sizesLegal hShrink.blocks ∧
    sizesLegal ((Op.realloc (some 32) 8 true).apply hShrink).blocks :=
  ⟨by decide, c3_min_block_size hShrink (Op.realloc (some 32) 8 true) (by decide)⟩
